import Mathlib

/-!
Verification of the chausie validation engine of `cleancat`
(`cleancat/chausie/field.py`, `schema_definition.py`, `schema.py`).

The Python code is shallowly embedded: Python values are an inductive
fragment `PyVal`, fields and validator callables are the mutual inductive
`Field`/`Validator`, exceptions travel in `Except PyExn`, and Python dicts
are insertion-ordered association lists.  Recursion through wrapped
(composite) fields and through the evaluation queue is implemented with
structural fuel; every entrypoint supplies fuel that provably cannot run
out, so the `outOfFuel` marker is unreachable from the entrypoints.
-/

set_option maxHeartbeats 1000000
set_option synthInstance.maxHeartbeats 1000000
set_option synthInstance.maxSize 512

namespace Cleancat

/-- The fragment of the Python value domain the engine manipulates.
`omitted` and `empty` are the two sentinel singletons from `consts.py`;
`valueObj` is a `Value` instance occurring as a plain Python object (the
case distinguished by `wrap_result`). -/
inductive PyVal where
  | none
  | omitted
  | empty
  | int (n : Int)
  | str (s : String)
  | bool (b : Bool)
  | list (xs : List PyVal)
  | valueObj (v : PyVal)

mutual
/-- Boolean equality on `PyVal` (deriving cannot handle the nesting). -/
def PyVal.beq : PyVal → PyVal → Bool
  | .none, .none => true
  | .omitted, .omitted => true
  | .empty, .empty => true
  | .int n, .int m => n == m
  | .str s, .str t => s == t
  | .bool a, .bool b => a == b
  | .list xs, .list ys => PyVal.beqL xs ys
  | .valueObj a, .valueObj b => PyVal.beq a b
  | _, _ => false

/-- Boolean equality on lists of `PyVal`. -/
def PyVal.beqL : List PyVal → List PyVal → Bool
  | [], [] => true
  | x :: xs, y :: ys => PyVal.beq x y && PyVal.beqL xs ys
  | _, _ => false
end

mutual
/-- Soundness of `PyVal.beq`. -/
def PyVal.beq_eq : ∀ a b, PyVal.beq a b = true → a = b
  | .none, .none, _ => rfl
  | .omitted, .omitted, _ => rfl
  | .empty, .empty, _ => rfl
  | .int n, .int m, h => by
    simp only [PyVal.beq] at h
    rw [eq_of_beq h]
  | .str s, .str t, h => by
    simp only [PyVal.beq] at h
    rw [eq_of_beq h]
  | .bool a, .bool b, h => by
    simp only [PyVal.beq] at h
    rw [eq_of_beq h]
  | .list xs, .list ys, h => by
    simp only [PyVal.beq] at h
    rw [PyVal.beqL_eq xs ys h]
  | .valueObj a, .valueObj b, h => by
    simp only [PyVal.beq] at h
    rw [PyVal.beq_eq a b h]
  | .none, .omitted, h => by simp [PyVal.beq] at h
  | .none, .empty, h => by simp [PyVal.beq] at h
  | .none, .int _, h => by simp [PyVal.beq] at h
  | .none, .str _, h => by simp [PyVal.beq] at h
  | .none, .bool _, h => by simp [PyVal.beq] at h
  | .none, .list _, h => by simp [PyVal.beq] at h
  | .none, .valueObj _, h => by simp [PyVal.beq] at h
  | .omitted, .none, h => by simp [PyVal.beq] at h
  | .omitted, .empty, h => by simp [PyVal.beq] at h
  | .omitted, .int _, h => by simp [PyVal.beq] at h
  | .omitted, .str _, h => by simp [PyVal.beq] at h
  | .omitted, .bool _, h => by simp [PyVal.beq] at h
  | .omitted, .list _, h => by simp [PyVal.beq] at h
  | .omitted, .valueObj _, h => by simp [PyVal.beq] at h
  | .empty, .none, h => by simp [PyVal.beq] at h
  | .empty, .omitted, h => by simp [PyVal.beq] at h
  | .empty, .int _, h => by simp [PyVal.beq] at h
  | .empty, .str _, h => by simp [PyVal.beq] at h
  | .empty, .bool _, h => by simp [PyVal.beq] at h
  | .empty, .list _, h => by simp [PyVal.beq] at h
  | .empty, .valueObj _, h => by simp [PyVal.beq] at h
  | .int _, .none, h => by simp [PyVal.beq] at h
  | .int _, .omitted, h => by simp [PyVal.beq] at h
  | .int _, .empty, h => by simp [PyVal.beq] at h
  | .int _, .str _, h => by simp [PyVal.beq] at h
  | .int _, .bool _, h => by simp [PyVal.beq] at h
  | .int _, .list _, h => by simp [PyVal.beq] at h
  | .int _, .valueObj _, h => by simp [PyVal.beq] at h
  | .str _, .none, h => by simp [PyVal.beq] at h
  | .str _, .omitted, h => by simp [PyVal.beq] at h
  | .str _, .empty, h => by simp [PyVal.beq] at h
  | .str _, .int _, h => by simp [PyVal.beq] at h
  | .str _, .bool _, h => by simp [PyVal.beq] at h
  | .str _, .list _, h => by simp [PyVal.beq] at h
  | .str _, .valueObj _, h => by simp [PyVal.beq] at h
  | .bool _, .none, h => by simp [PyVal.beq] at h
  | .bool _, .omitted, h => by simp [PyVal.beq] at h
  | .bool _, .empty, h => by simp [PyVal.beq] at h
  | .bool _, .int _, h => by simp [PyVal.beq] at h
  | .bool _, .str _, h => by simp [PyVal.beq] at h
  | .bool _, .list _, h => by simp [PyVal.beq] at h
  | .bool _, .valueObj _, h => by simp [PyVal.beq] at h
  | .list _, .none, h => by simp [PyVal.beq] at h
  | .list _, .omitted, h => by simp [PyVal.beq] at h
  | .list _, .empty, h => by simp [PyVal.beq] at h
  | .list _, .int _, h => by simp [PyVal.beq] at h
  | .list _, .str _, h => by simp [PyVal.beq] at h
  | .list _, .bool _, h => by simp [PyVal.beq] at h
  | .list _, .valueObj _, h => by simp [PyVal.beq] at h
  | .valueObj _, .none, h => by simp [PyVal.beq] at h
  | .valueObj _, .omitted, h => by simp [PyVal.beq] at h
  | .valueObj _, .empty, h => by simp [PyVal.beq] at h
  | .valueObj _, .int _, h => by simp [PyVal.beq] at h
  | .valueObj _, .str _, h => by simp [PyVal.beq] at h
  | .valueObj _, .bool _, h => by simp [PyVal.beq] at h
  | .valueObj _, .list _, h => by simp [PyVal.beq] at h

/-- Soundness of `PyVal.beqL`. -/
def PyVal.beqL_eq : ∀ xs ys, PyVal.beqL xs ys = true → xs = ys
  | [], [], _ => rfl
  | x :: xs, y :: ys, h => by
    simp only [PyVal.beqL, Bool.and_eq_true] at h
    rw [PyVal.beq_eq x y h.1, PyVal.beqL_eq xs ys h.2]
  | [], _ :: _, h => by simp [PyVal.beqL] at h
  | _ :: _, [], h => by simp [PyVal.beqL] at h
end

mutual
/-- Reflexivity of `PyVal.beq`. -/
def PyVal.beq_refl : ∀ a, PyVal.beq a a = true
  | .none => rfl
  | .omitted => rfl
  | .empty => rfl
  | .int n => by simp [PyVal.beq]
  | .str s => by simp [PyVal.beq]
  | .bool b => by simp [PyVal.beq]
  | .list xs => by simp only [PyVal.beq]; exact PyVal.beqL_refl xs
  | .valueObj a => by simp only [PyVal.beq]; exact PyVal.beq_refl a

/-- Reflexivity of `PyVal.beqL`. -/
def PyVal.beqL_refl : ∀ xs, PyVal.beqL xs xs = true
  | [] => rfl
  | x :: xs => by
    simp only [PyVal.beqL, Bool.and_eq_true]
    exact ⟨PyVal.beq_refl x, PyVal.beqL_refl xs⟩
end

instance : DecidableEq PyVal := fun a b =>
  decidable_of_iff (PyVal.beq a b = true)
    ⟨PyVal.beq_eq a b, fun h => h ▸ PyVal.beq_refl a⟩

deriving instance DecidableEq for Except

deriving instance DecidableEq for Sum

/-- One component of an error path (`Tuple[Union[str, int], ...]`):
a field name or a list index. -/
inductive PathKey where
  | s (s : String)
  | i (n : Nat)
deriving DecidableEq

/-- `Error` from `field.py`: a message plus a field path (default empty). -/
structure Error where
  msg : String
  field : List PathKey := []
deriving DecidableEq

/-- `Errors` from `field.py`: a batch of errors sharing a path prefix. -/
structure Errors where
  errors : List Error
  field : List PathKey := []
deriving DecidableEq

/-- `wrap_result` on an `Error`:
`attr.evolve(result, field=field + result.field)`. -/
def wrapError (field : List PathKey) (e : Error) : Error :=
  { e with field := field ++ e.field }

/-- `Errors.flatten` from `field.py`. -/
def Errors.flatten (es : Errors) : List Error :=
  es.errors.map (wrapError es.field)

/-- A stored validation result: `Union[Value, Errors]`. -/
inductive Res where
  | value (v : PyVal)
  | errors (e : Errors)
deriving DecidableEq

/-- `Nullability` with its two attrs subclasses from `field.py`:
`Required` (`allow_none` defaults to `False`) and `Optional`
(`allow_none` defaults to `True`, `omitted_value` defaults to `omitted`). -/
inductive Nullability where
  | required (allow_none : Bool)
  | optional (allow_none : Bool) (omitted_value : PyVal)
deriving DecidableEq

/-- The `allow_none` attribute of a `Nullability`. -/
def Nullability.allow_none : Nullability → Bool
  | .required b => b
  | .optional b _ => b

/-- What a validator call can return, after the `isinstance` analysis done
by `run_validators`: a plain Python object, an `Error`, an `Errors`, or an
`UnvalidatedWrappedValue`.  The inner field and the `construct` method of a
wrapped value are fixed attributes of the `WrapperField` object that
produced it, so they live on `Validator` below rather than here. -/
inductive VRet where
  | raw (v : PyVal)
  | err (e : Error)
  | errs (e : Errors)
  | wrapped (values : List PyVal)
deriving DecidableEq

mutual
/-- `Field` from `field.py`: validator chain, accepted input aliases,
serialization settings, nullability and declared dependencies. -/
inductive Field where
  | mk (validators : List Validator) (accepts : List String)
      (serialize_to : Option String) (serialize_func : PyVal → PyVal)
      (nullability : Nullability) (depends_on : List String)

/-- A validator callable as `inject_deps`/`run_validators` see it:
`params` are its declared parameter names
(`inspect.signature(func).parameters`), `ctxDefault` is the declared
default of its `context` parameter (`Option.none` means the parameter has
no default; `some PyVal.empty` means the default is the `empty` sentinel),
`fn` is the callable applied to the injected keyword arguments, and, for
`WrapperField` instances, `inner` is the fixed `inner_field` attribute and
`construct` the fixed reconstruction method (applied to the `.value`
payloads of the validated inner results). -/
inductive Validator where
  | mk (params : List String) (ctxDefault : Option PyVal)
      (fn : List (String × PyVal) → VRet)
      (inner : Option Field) (construct : List PyVal → PyVal)
end

/-- The validator chain of a field. -/
def Field.validators : Field → List Validator
  | .mk vs _ _ _ _ _ => vs

/-- The accepted input aliases of a field. -/
def Field.accepts : Field → List String
  | .mk _ a _ _ _ _ => a

/-- The `serialize_to` override of a field. -/
def Field.serialize_to : Field → Option String
  | .mk _ _ st _ _ _ => st

/-- The `serialize_func` of a field. -/
def Field.serialize_func : Field → PyVal → PyVal
  | .mk _ _ _ sf _ _ => sf

/-- The nullability policy of a field. -/
def Field.nullability : Field → Nullability
  | .mk _ _ _ _ nb _ => nb

/-- The declared dependencies of a field. -/
def Field.depends_on : Field → List String
  | .mk _ _ _ _ _ dep => dep

/-- The declared parameter names of a validator. -/
def Validator.params : Validator → List String
  | .mk ps _ _ _ _ => ps

/-- The declared default of a validator's `context` parameter. -/
def Validator.ctxDefault : Validator → Option PyVal
  | .mk _ cd _ _ _ => cd

/-- The callable of a validator. -/
def Validator.fn : Validator → List (String × PyVal) → VRet
  | .mk _ _ f _ _ => f

/-- The `inner_field` of a `WrapperField` validator. -/
def Validator.inner : Validator → Option Field
  | .mk _ _ _ i _ => i

/-- The `construct` method of a `WrapperField` validator. -/
def Validator.construct : Validator → List PyVal → PyVal
  | .mk _ _ _ _ c => c

mutual
/-- A computable size of a field, bounding its wrapper-nesting depth; used
as the fuel for `run_validators`. -/
def Field.size : Field → Nat
  | .mk vs _ _ _ _ _ => 1 + Field.sizeVs vs

/-- Size of a validator list. -/
def Field.sizeVs : List Validator → Nat
  | [] => 0
  | v :: rest => 1 + Validator.size v + Field.sizeVs rest

/-- Size of a validator: dominated by its inner field, when any. -/
def Validator.size : Validator → Nat
  | .mk _ _ _ Option.none _ => 1
  | .mk _ _ _ (some f) _ => 2 + Field.size f
end

/-- Python exceptions the engine can raise.  `outOfFuel` is a modelling
artefact of the structural-fuel recursions; the entrypoints supply enough
fuel for it to be unreachable. -/
inductive PyExn where
  | valueError (msg : String)
  | attributeError
  | typeError
  | keyError
  | assertionError
  | outOfFuel
deriving DecidableEq

/-- First-match association-list lookup: Python dict lookup. -/
def lookup {α : Type} : List (String × α) → String → Option α
  | [], _ => Option.none
  | (k, v) :: rest, n => if k = n then some v else lookup rest n

/-- The keys of an association list, in insertion order. -/
def keys {α : Type} (l : List (String × α)) : List String := l.map Prod.fst

/-- Python dict assignment, `d[k] = v`: replace the value in place when the
key exists, otherwise append the pair at the end. -/
def setKey {α : Type} (l : List (String × α)) (k : String) (v : α) :
    List (String × α) :=
  if k ∈ keys l then l.map (fun p => if p.1 = k then (k, v) else p)
  else l ++ [(k, v)]

/-- Keyword arguments drawn from the intermediate results:
`{dep: v.value for dep, v in intermediate_results.items() if dep in deps}`.
Accessing `.value` on an `Errors` raises `AttributeError`. -/
def depKwargs (params : List String) :
    List (String × Res) → Except PyExn (List (String × PyVal))
  | [] => .ok []
  | (n, r) :: rest =>
    if n ∈ params then
      match r with
      | .value v => (depKwargs params rest).map (fun ks => (n, v) :: ks)
      | .errors _ => .error .attributeError
    else depKwargs params rest

/-- The `{"context": context, "value": val}` keyword arguments, restricted
to the declared parameters. -/
def sentinelKwargs (params : List String) (ctx : PyVal) (val : PyVal) :
    List (String × PyVal) :=
  (if "context" ∈ params then [("context", ctx)] else []) ++
    (if "value" ∈ params then [("value", val)] else [])

/-- `inject_deps` followed by the validator call.  No declared parameters
means the callable is invoked with no arguments.  A declared `context`
parameter with no supplied context raises
`ValueError("Context is required for evaluating this schema.")` unless the
parameter's declared default is the `empty` sentinel.  Otherwise keyword
arguments are injected from the intermediate results and from the
`context`/`value` sentinels; the same keyword supplied from both sources (a
dependency named `context` or `value`) raises `TypeError`, as the duplicate
keyword argument would in Python. -/
def applyValidator (v : Validator) (val : PyVal) (ctx : PyVal)
    (ir : List (String × Res)) : Except PyExn VRet :=
  if v.params = [] then .ok (v.fn [])
  else if "context" ∈ v.params ∧ ctx = PyVal.empty ∧
      v.ctxDefault ≠ some PyVal.empty then
    .error (.valueError "Context is required for evaluating this schema.")
  else
    match depKwargs v.params ir with
    | .error e => .error e
    | .ok dks =>
      let sks := sentinelKwargs v.params ctx val
      if (keys dks).any (fun k => (keys sks).contains k) then
        .error .typeError
      else .ok (v.fn (dks ++ sks))

/-- The final `wrap_result` call on the running result: a `Value` instance
is returned as is, anything else is wrapped into a `Value`. -/
def finalWrap : PyVal → PyVal
  | .valueObj v => v
  | v => v

/-- The `flattened_errors` accumulation over the inner results of a wrapped
collection (only `Errors` contribute; `run_validators` never returns a bare
`Error`). -/
def flattenInner : List Res → List Error
  | [] => []
  | .value _ :: rest => flattenInner rest
  | .errors es :: rest => es.flatten ++ flattenInner rest

/-- `[v.value for v in values]`-style payload extraction, as `construct`
receives it; an `Errors` among the results raises `AttributeError`. -/
def payloads : List Res → Except PyExn (List PyVal)
  | [] => .ok []
  | .value v :: rest => (payloads rest).map (fun vs => v :: vs)
  | .errors _ :: _ => .error .attributeError

/-- The per-element loop for an `UnvalidatedWrappedValue`: run the inner
field against each element, with the element's index as the path. -/
def runInnerGo
    (recur : Field → List PathKey → PyVal → PyVal → List (String × Res) →
      Except PyExn Res)
    (fi : Field) (ctx : PyVal) (ir : List (String × Res)) :
    List PyVal → Nat → Except PyExn (List Res)
  | [], _ => .ok []
  | x :: rest, idx =>
    match recur fi [.i idx] x ctx ir with
    | .error e => .error e
    | .ok r =>
      match runInnerGo recur fi ctx ir rest (idx + 1) with
      | .error e => .error e
      | .ok rs => .ok (r :: rs)

/-- The validator loop of `run_validators`: apply each validator in order
to the running result, stop on `Error`/`Errors` (scoping them under the
field's path), recurse into the inner field for a wrapped collection, and
finally wrap the running result into a `Value`. -/
def chainGo
    (recur : Field → List PathKey → PyVal → PyVal → List (String × Res) →
      Except PyExn Res)
    (fieldPath : List PathKey) (ctx : PyVal) (ir : List (String × Res)) :
    List Validator → PyVal → Except PyExn Res
  | [], cur => .ok (.value (finalWrap cur))
  | v :: rest, cur =>
    match applyValidator v cur ctx ir with
    | .error e => .error e
    | .ok (.raw x) => chainGo recur fieldPath ctx ir rest x
    | .ok (.err e) => .ok (.errors ⟨[e], fieldPath⟩)
    | .ok (.errs es) => .ok (.errors ⟨es.flatten, fieldPath⟩)
    | .ok (.wrapped values) =>
      match v.inner with
      | Option.none => .error .attributeError
      | some fi =>
        match runInnerGo recur fi ctx ir values 0 with
        | .error e => .error e
        | .ok inners =>
          let flattened := flattenInner inners
          if flattened.isEmpty then
            match payloads inners with
            | .error e => .error e
            | .ok vals => chainGo recur fieldPath ctx ir rest (v.construct vals)
          else .ok (.errors ⟨flattened, fieldPath⟩)

/-- Fueled `Field.run_validators`.  Handles nullability first (only when
some validator declares a `value` parameter and the input is the `omitted`
sentinel or `None`), then runs the validator chain.  Fuel decreases only
when recursing into a wrapped inner field, so the `sizeOf` of the field
bounds the fuel ever needed. -/
def runValidatorsFuel :
    Nat → Field → List PathKey → PyVal → PyVal → List (String × Res) →
      Except PyExn Res
  | 0, _, _, _, _, _ => .error .outOfFuel
  | fuel + 1, f, fieldPath, value, ctx, ir =>
    if (value = PyVal.omitted ∨ value = PyVal.none) ∧
        f.validators.any (fun v => v.params.contains "value") then
      if value = PyVal.none then
        if f.nullability.allow_none then .ok (.value value)
        else
          .ok (.errors
            ⟨[⟨"Value is required, and must not be None.", []⟩], fieldPath⟩)
      else
        match f.nullability with
        | .required _ =>
          .ok (.errors ⟨[⟨"Value is required.", []⟩], fieldPath⟩)
        | .optional _ ov => .ok (.value ov)
    else
      chainGo (runValidatorsFuel fuel) fieldPath ctx ir f.validators value

/-- `Field.run_validators` from `field.py`: the fueled variant, with fuel
`Field.size f + 1` (an upper bound on the wrapped-field nesting depth). -/
def run_validators (f : Field) (fieldPath : List PathKey) (value : PyVal)
    (ctx : PyVal) (ir : List (String × Res)) : Except PyExn Res :=
  runValidatorsFuel (Field.size f + 1) f fieldPath value ctx ir

/-- An input source for `clean`: a string-keyed mapping or an
attribute-bearing object. -/
inductive Data where
  | dict (entries : List (String × PyVal))
  | obj (attrs : List (String × PyVal))

/-- `getter` from `schema_definition.py`, translated faithfully: the
non-dict branch evaluates `getattr(dict_or_obj, field_name, default)` but
does not return it, so the function returns `None` for every non-dict
source. -/
def getter (dict_or_obj : Data) (field_name : String) (default : PyVal) :
    PyVal :=
  match dict_or_obj with
  | .dict entries => (lookup entries field_name).getD default
  | .obj _ => PyVal.none

/-- The `accepts` resolution loop of `clean`: try each accepted alias in
order, stopping at the first value that is not the `omitted` sentinel; the
running value starts as the `empty` sentinel and keeps the last `getter`
result when no alias matched. -/
def resolveValue (data : Data) : List String → PyVal
  | [] => PyVal.empty
  | [a] => getter data a PyVal.omitted
  | a :: b :: rest =>
    let v := getter data a PyVal.omitted
    if v = PyVal.omitted then resolveValue data (b :: rest) else v

/-- `dep in results and isinstance(results[dep], Value)`. -/
def isValueAt (results : List (String × Res)) (d : String) : Bool :=
  match lookup results d with
  | some (.value _) => true
  | _ => false

/-- The delayed-field rescan of `clean`: every delayed field whose name is
not yet bound in the results, is not queued, and whose dependencies all
hold a `Value` is promoted (in delayed-list order). -/
def promote (delayed : List (String × Field))
    (results : List (String × Res)) (queuedNames : List String) :
    List (String × Field) :=
  delayed.filter (fun nf =>
    !(keys results).contains nf.1 && !queuedNames.contains nf.1 &&
      nf.2.depends_on.all (isValueAt results))

/-- The `while eval_queue` loop of `clean`.  The queue is kept top-first
(Python appends to and pops from the end of its list), so popping takes the
head and promoted fields are consed, reversed, onto the front.  One unit of
fuel is spent per pop; `clean` supplies `len(fields) + 1`, which cannot run
out because every field is enqueued at most once. -/
def cleanLoop (data : Data) (ctx : PyVal)
    (delayed : List (String × Field)) :
    Nat → List (String × Field) → List (String × Res) →
      Except PyExn (List (String × Res))
  | _, [], results => .ok results
  | 0, _ :: _, _ => .error .outOfFuel
  | fuel + 1, (field_name, field_def) :: rest, results =>
    let accepts :=
      if field_def.accepts.isEmpty then [field_name] else field_def.accepts
    let value := resolveValue data accepts
    if value = PyVal.empty then .error .assertionError
    else
      match run_validators field_def [.s field_name] value ctx results with
      | .error e => .error e
      | .ok r =>
        let results' := setKey results field_name r
        cleanLoop data ctx delayed fuel
          ((promote delayed results' (keys rest)).reverse ++ rest) results'

/-- `ValidationError` from `field.py`. -/
structure ValidationError where
  errors : List Error
deriving DecidableEq

/-- `v.flatten()` for every non-`Value` result, concatenated in insertion
order (the error-aggregation step of `clean`). -/
def collectErrors : List (String × Res) → List Error
  | [] => []
  | (_, .value _) :: rest => collectErrors rest
  | (_, .errors es) :: rest => es.flatten ++ collectErrors rest

/-- `SchemaDefinition` from `schema_definition.py`: an insertion-ordered
mapping of field name to field. -/
structure SchemaDefinition where
  fields : List (String × Field)

/-- What a non-raising `clean` call returns: a `ValidationError` or a
validated record. -/
abbrev CleanOutcome := Sum ValidationError (List (String × PyVal))

/-- The initial partition condition of `clean`:
`not f.depends_on or all([d in results for d in f.depends_on])`, where the
results map contains only the synthetic `"self"` entry. -/
def initiallyReady (init : List (String × Res)) (f : Field) : Bool :=
  f.depends_on.isEmpty || f.depends_on.all (fun d => (keys init).contains d)

/-- The error-aggregation and record-building tail of `clean`, shared with
the instrumented variant: flatten every non-`Value` result; if any errors
were produced return a `ValidationError`; otherwise unwrap the values, drop
the synthetic `"self"` entry, and check the asserted key-set equality
(raising `AssertionError` exactly when Python's `assert` would fire). -/
def finishClean (fieldNames : List String)
    (results : List (String × Res)) : Except PyExn CleanOutcome :=
  let errors := collectErrors results
  if errors.isEmpty then
    let validated := results.filterMap (fun p =>
      match p.2 with
      | .value v => if p.1 = "self" then Option.none else some (p.1, v)
      | .errors _ => Option.none)
    if (keys validated).all (fun k => fieldNames.contains k) &&
        fieldNames.all (fun k => (keys validated).contains k) then
      .ok (.inr validated)
    else .error .assertionError
  else .ok (.inl ⟨errors⟩)

/-- `clean` from `schema_definition.py`: seed the synthetic `"self"`
result, partition the fields into the initially ready queue and the
delayed list, run the evaluation loop, then aggregate errors or build the
validated record. -/
def clean (sd : SchemaDefinition) (data : Data) (ctx : PyVal) :
    Except PyExn CleanOutcome :=
  let init : List (String × Res) := [("self", .value PyVal.none)]
  let ready := sd.fields.filter (fun nf => initiallyReady init nf.2)
  let delayed := sd.fields.filter (fun nf => !initiallyReady init nf.2)
  match cleanLoop data ctx delayed (sd.fields.length + 1)
      ready.reverse init with
  | .error e => .error e
  | .ok results => finishClean (keys sd.fields) results

/-- A record of the evaluations performed by a `clean` call: for each
evaluated field, its name and the results map at the moment it was popped
from the queue. -/
abbrev Trace := List (String × List (String × Res))

/-- Instrumented variant of `cleanLoop`, identical except that it also
records the evaluation trace. -/
def cleanLoopT (data : Data) (ctx : PyVal)
    (delayed : List (String × Field)) :
    Nat → List (String × Field) → List (String × Res) → Trace →
      Except PyExn (List (String × Res) × Trace)
  | _, [], results, tr => .ok (results, tr)
  | 0, _ :: _, _, _ => .error .outOfFuel
  | fuel + 1, (field_name, field_def) :: rest, results, tr =>
    let accepts :=
      if field_def.accepts.isEmpty then [field_name] else field_def.accepts
    let value := resolveValue data accepts
    if value = PyVal.empty then .error .assertionError
    else
      match run_validators field_def [.s field_name] value ctx results with
      | .error e => .error e
      | .ok r =>
        let results' := setKey results field_name r
        cleanLoopT data ctx delayed fuel
          ((promote delayed results' (keys rest)).reverse ++ rest) results'
          (tr ++ [(field_name, results)])

/-- Instrumented variant of `clean`: same outcome, plus the final results
map and the evaluation trace. -/
def cleanT (sd : SchemaDefinition) (data : Data) (ctx : PyVal) :
    Except PyExn (CleanOutcome × List (String × Res) × Trace) :=
  let init : List (String × Res) := [("self", .value PyVal.none)]
  let ready := sd.fields.filter (fun nf => initiallyReady init nf.2)
  let delayed := sd.fields.filter (fun nf => !initiallyReady init nf.2)
  match cleanLoopT data ctx delayed (sd.fields.length + 1)
      ready.reverse init [] with
  | .error e => .error e
  | .ok (results, tr) =>
    match finishClean (keys sd.fields) results with
    | .error e => .error e
    | .ok out => .ok (out, results, tr)

/-- The invariant carried through the evaluation loop of `clean`: the
results map binds `"self"` and the already-evaluated fields exactly once
each and in evaluation order; queued fields are unevaluated, queued at
most once, and have all their dependencies bound to `Value`s; each trace
entry records a results snapshot in which the evaluated field's
dependencies held `Value`s, and snapshots only grow; delayed fields that
are neither bound nor queued have an unmet dependency; every field is
bound, queued, or delayed; and every stored `Errors` is scoped to the path
of the field that produced it. -/
structure LoopInv (fields delayed queue : List (String × Field))
    (results : List (String × Res)) (tr : Trace) : Prop where
  nodupRes : (keys results).Nodup
  queueFresh : ∀ n ∈ keys queue, n ∉ keys results
  nodupQueue : (keys queue).Nodup
  queueMem : ∀ nf ∈ queue, nf ∈ fields
  queueReady : ∀ nf ∈ queue, ∀ d ∈ nf.2.depends_on,
    isValueAt results d = true
  resKeys : keys results = "self" :: tr.map Prod.fst
  trReady : ∀ ev ∈ tr, ∀ f, lookup fields ev.1 = some f →
    ∀ d ∈ f.depends_on, isValueAt ev.2 d = true
  trSub : ∀ ev ∈ tr, ∀ k r, lookup ev.2 k = some r →
    lookup results k = some r
  delayedMem : ∀ nf ∈ delayed, nf ∈ fields
  delayedBlocked : ∀ nf ∈ delayed, nf.1 ∉ keys results →
    nf.1 ∉ keys queue → ∃ d ∈ nf.2.depends_on, isValueAt results d = false
  coverage : ∀ nf ∈ fields, nf.1 ∈ keys results ∨ nf ∈ queue ∨ nf ∈ delayed
  selfVal : lookup results "self" = some (.value PyVal.none)
  errsField : ∀ k es, lookup results k = some (.errors es) →
    es.field = [.s k]
  resScope : ∀ k ∈ keys results, k = "self" ∨ k ∈ keys fields

/-- `field_def.serialize_to or field_name`, with Python truthiness: `None`
and the empty string both fall back to the field name. -/
def serTarget (f : Field) (n : String) : String :=
  match f.serialize_to with
  | some s => if s = "" then n else s
  | Option.none => n

/-- The dict comprehension of `serialize`: build the serialized mapping in
field order, raising `KeyError` when `data[field_name]` is missing. -/
def serializeRaw (data : List (String × PyVal)) :
    List (String × Field) → List (String × PyVal) →
      Except PyExn (List (String × PyVal))
  | [], acc => .ok acc
  | (n, f) :: rest, acc =>
    match lookup data n with
    | Option.none => .error .keyError
    | some v =>
      serializeRaw data rest (setKey acc (serTarget f n) (f.serialize_func v))

/-- `serialize` from `schema_definition.py`: build the serialized mapping,
then drop every entry whose final value is the `omitted` sentinel. -/
def serialize (sd : SchemaDefinition) (data : List (String × PyVal)) :
    Except PyExn (List (String × PyVal)) :=
  (serializeRaw data sd.fields []).map
    (fun r => r.filter (fun p => p.2 != PyVal.omitted))

/-- Removal of the entry with the given key (Python `dict.pop(k)`). -/
def removeKey {α : Type} : List (String × α) → String → List (String × α)
  | [], _ => []
  | (k, v) :: rest, n => if k = n then rest else (k, v) :: removeKey rest n

/-- One pass of `_check_for_dependency_loops`: the first field whose
dependency set is empty or fully `seen`. -/
def findMovable (deps : List (String × List String)) (seen : List String) :
    Option String :=
  (deps.find? (fun nd =>
    nd.2.isEmpty || nd.2.all (fun d => seen.contains d))).map Prod.fst

/-- The `while deps` loop of `_check_for_dependency_loops`: each pass moves
the first movable field into `seen` and drops it from `deps`, and raises
`ValueError` when no pass makes progress.  `seen` is a set, so re-adding a
member does not grow it and the pass counts as no progress.  Fuel is one
unit per pass; the entry count is enough since each pass removes one
entry. -/
def checkLoopsAux :
    Nat → List (String × List String) → List String → Except PyExn Unit
  | _, [], _ => .ok ()
  | 0, _ :: _, _ => .error .outOfFuel
  | fuel + 1, d :: ds, seen =>
    match findMovable (d :: ds) seen with
    | Option.none =>
      .error (.valueError "Field dependencies could not be resolved.")
    | some n =>
      if n ∈ seen then
        .error (.valueError "Field dependencies could not be resolved.")
      else checkLoopsAux fuel (removeKey (d :: ds) n) (seen ++ [n])

/-- `_check_for_dependency_loops` from `schema.py`, run by `schema()` at
construction time. -/
def check_for_dependency_loops (fields : List (String × Field)) :
    Except PyExn Unit :=
  let deps := fields.map (fun nf => (nf.1, nf.2.depends_on))
  checkLoopsAux deps.length deps ["self"]

/-- `noop` from `field.py`, the default `serialize_func`. -/
def noop : PyVal → PyVal := fun v => v

/-- The callable of `strfield` from `field.py`. -/
def strfieldFn : List (String × PyVal) → VRet := fun args =>
  match lookup args "value" with
  | some (.str s) => .raw (.str s)
  | _ => .err ⟨"Unhandled type", []⟩

/-- `strfield` as a `Validator` (it declares exactly `value`). -/
def strfieldV : Validator :=
  .mk ["value"] Option.none strfieldFn Option.none (fun _ => PyVal.none)

/-- The callable of `boolfield` from `field.py`. -/
def boolfieldFn : List (String × PyVal) → VRet := fun args =>
  match lookup args "value" with
  | some (.bool b) => .raw (.bool b)
  | _ => .err ⟨"Value is not a boolean.", []⟩

/-- `boolfield` as a `Validator` (it declares exactly `value`). -/
def boolfieldV : Validator :=
  .mk ["value"] Option.none boolfieldFn Option.none (fun _ => PyVal.none)

/-- The callable of a `_ListField` instance: `impl` accepts a list (the
tuple branch is outside the embedded value fragment) and the wrapper then
returns an `UnvalidatedWrappedValue` carrying the original collection. -/
def listfieldFn : List (String × PyVal) → VRet := fun args =>
  match lookup args "value" with
  | some (.list xs) => .wrapped xs
  | _ => .err ⟨"Unhandled type", []⟩

/-- `listfield(inner)` as a `Validator`: its `__call__` declares exactly
`value`, its `inner_field` is fixed, and its `construct` rebuilds the list
from the validated element payloads in order. -/
def listfieldV (inner : Field) : Validator :=
  .mk ["value"] Option.none listfieldFn (some inner) PyVal.list

/-- The `Field` produced by `field(listfield(inner))`: a single-validator
chain, no aliases, default serialization, `Required()` nullability, and no
dependencies (the wrapper declares only the reserved name `value`). -/
def listFieldDef (inner : Field) : Field :=
  .mk [listfieldV inner] [] Option.none noop (.required false) []

/-- `dep in results and isinstance(results[dep], Errors)`: the name failed
validation in the given results map. -/
def failedIn (results : List (String × Res)) (n : String) : Bool :=
  match lookup results n with
  | some (.errors _) => true
  | _ => false

/-- A field name that transitively depends on a failed field: one of its
declared dependencies either failed or is itself tainted. -/
inductive Tainted (fields : List (String × Field)) (failed : String → Bool) :
    String → Prop where
  | base {n : String} {f : Field} {d : String} : (n, f) ∈ fields →
      d ∈ f.depends_on → failed d = true → Tainted fields failed n
  | step {n : String} {f : Field} {d : String} : (n, f) ∈ fields →
      d ∈ f.depends_on → Tainted fields failed d → Tainted fields failed n

/-- The declared dependency relation contains a cycle: a nonempty set of
names, each declared as a field and each depending on a member of the
set. -/
def Cyclic (fields : List (String × Field)) : Prop :=
  ∃ S : List String, S ≠ [] ∧
    ∀ n ∈ S, ∃ f, lookup fields n = some f ∧ ∃ d ∈ f.depends_on, d ∈ S

/-- Example: a plain required string field (`field(strfield)`). -/
def strF : Field := .mk [strfieldV] [] Option.none noop (.required false) []

/-- Example: a plain optional string field with `omitted_value` defaults. -/
def optStrF : Field :=
  .mk [strfieldV] [] Option.none noop (.optional true PyVal.omitted) []

/-- Example: the callable of a field-function that reads sibling field `a`
and appends `"!"`. -/
def depFn : List (String × PyVal) → VRet := fun args =>
  match lookup args "a" with
  | some (.str s) => .raw (.str (s ++ "!"))
  | _ => .err ⟨"bad dep", []⟩

/-- Example: `depFn` as a validator declaring parameter `a`. -/
def depV : Validator :=
  .mk ["a"] Option.none depFn Option.none (fun _ => PyVal.none)

/-- Example: a field whose validator depends on sibling field `a`. -/
def depF : Field := .mk [depV] [] Option.none noop (.required false) ["a"]

/-- Example schema: `a` a required string, `b` computed from `a`. -/
def sd2 : SchemaDefinition := ⟨[("a", strF), ("b", depF)]⟩

/-- Example: a validator declaring `value` and `context`, the `context`
parameter having the default `None` (it has a default, but not the `empty`
sentinel). -/
def ctxDefaultNoneV : Validator :=
  .mk ["value", "context"] (some PyVal.none)
    (fun args => .raw ((lookup args "value").getD PyVal.none))
    Option.none (fun _ => PyVal.none)

/-- Example: the same validator but with the `empty` sentinel as the
`context` default (the optional/passthrough spelling). -/
def ctxEmptyDefaultV : Validator :=
  .mk ["value", "context"] (some PyVal.empty)
    (fun args => .raw ((lookup args "value").getD PyVal.none))
    Option.none (fun _ => PyVal.none)

/-- Example schema: one required field whose validator declares `context`
with default `None`. -/
def ctxSchema : SchemaDefinition :=
  ⟨[("a", Field.mk [ctxDefaultNoneV] [] Option.none noop
      (.required false) [])]⟩

/-- Example: a plain required boolean field, used as a list inner field. -/
def boolF : Field := .mk [boolfieldV] [] Option.none noop (.required false) []

/-- Example: a list field over booleans. -/
def listBoolF : Field := listFieldDef boolF

/-- Example: a string field serialized under the name `renamed`. -/
def serRenF : Field :=
  .mk [strfieldV] [] (some "renamed") noop (.required false) []

/-- Example: a string field whose serializer always yields the `omitted`
sentinel, so serialization drops it. -/
def serDropF : Field :=
  .mk [strfieldV] [] Option.none (fun _ => PyVal.omitted)
    (.required false) []

/-- Example schema exercising `serialize_to` and omitted-dropping. -/
def sd6 : SchemaDefinition := ⟨[("a", serRenF), ("b", serDropF)]⟩

/-- Example: two fields depending on each other (a dependency cycle). -/
def cycFields : List (String × Field) :=
  [("d1", Field.mk [] [] Option.none noop (.required false) ["d2"]),
   ("d2", Field.mk [] [] Option.none noop (.required false) ["d1"])]

@[simp]
theorem Field.validators_mk (vs a st sf nb dep) :
    (Field.mk vs a st sf nb dep).validators = vs := rfl

@[simp]
theorem Field.accepts_mk (vs a st sf nb dep) :
    (Field.mk vs a st sf nb dep).accepts = a := rfl

@[simp]
theorem Field.serialize_to_mk (vs a st sf nb dep) :
    (Field.mk vs a st sf nb dep).serialize_to = st := rfl

@[simp]
theorem Field.serialize_func_mk (vs a st sf nb dep) :
    (Field.mk vs a st sf nb dep).serialize_func = sf := rfl

@[simp]
theorem Field.nullability_mk (vs a st sf nb dep) :
    (Field.mk vs a st sf nb dep).nullability = nb := rfl

@[simp]
theorem Field.depends_on_mk (vs a st sf nb dep) :
    (Field.mk vs a st sf nb dep).depends_on = dep := rfl

@[simp]
theorem Validator.params_mk (ps cd fn i c) :
    (Validator.mk ps cd fn i c).params = ps := rfl

@[simp]
theorem Validator.ctxDefault_mk (ps cd fn i c) :
    (Validator.mk ps cd fn i c).ctxDefault = cd := rfl

@[simp]
theorem Validator.fn_mk (ps cd fn i c) :
    (Validator.mk ps cd fn i c).fn = fn := rfl

@[simp]
theorem Validator.inner_mk (ps cd fn i c) :
    (Validator.mk ps cd fn i c).inner = i := rfl

@[simp]
theorem Validator.construct_mk (ps cd fn i c) :
    (Validator.mk ps cd fn i c).construct = c := rfl

section AssocLemmas

variable {α : Type}

@[simp]
theorem keys_nil : keys ([] : List (String × α)) = [] := rfl

@[simp]
theorem keys_cons (p : String × α) (l : List (String × α)) :
    keys (p :: l) = p.1 :: keys l := rfl

@[simp]
theorem keys_append (l m : List (String × α)) :
    keys (l ++ m) = keys l ++ keys m := by
  simp [keys]

theorem lookup_isSome_of_mem_keys {l : List (String × α)} {n : String}
    (h : n ∈ keys l) : (lookup l n).isSome := by
  induction l with
  | nil => simp [keys] at h
  | cons p rest ih =>
    cases p with
    | mk k v =>
      simp only [lookup]
      by_cases hk : k = n
      · simp [hk]
      · simp only [if_neg hk]
        simp only [keys_cons, List.mem_cons] at h
        exact ih (h.resolve_left (fun hh => hk hh.symm))

theorem mem_keys_of_lookup_some {l : List (String × α)} {n : String} {v : α}
    (h : lookup l n = some v) : n ∈ keys l := by
  induction l with
  | nil => simp [lookup] at h
  | cons p rest ih =>
    cases p with
    | mk k w =>
      simp only [lookup] at h
      by_cases hk : k = n
      · simp [keys, hk]
      · simp only [if_neg hk] at h
        exact List.mem_cons_of_mem _ (ih h)

theorem lookup_eq_none_of_not_mem {l : List (String × α)} {n : String}
    (h : n ∉ keys l) : lookup l n = Option.none := by
  cases hl : lookup l n with
  | none => rfl
  | some v => exact absurd (mem_keys_of_lookup_some hl) h

theorem lookup_append_some {l m : List (String × α)} {n : String} {v : α}
    (h : lookup l n = some v) : lookup (l ++ m) n = some v := by
  induction l with
  | nil => simp [lookup] at h
  | cons p rest ih =>
    cases p with
    | mk k w =>
      simp only [lookup] at h ⊢
      by_cases hk : k = n
      · simpa [hk] using h
      · simp only [if_neg hk] at h ⊢
        exact ih h

theorem lookup_append_of_not_mem {l m : List (String × α)} {n : String}
    (h : n ∉ keys l) : lookup (l ++ m) n = lookup m n := by
  induction l with
  | nil => simp
  | cons p rest ih =>
    cases p with
    | mk k w =>
      simp only [keys_cons, List.mem_cons] at h
      have hk : ¬(k = n) := fun hh => h (Or.inl hh.symm)
      have hr : n ∉ keys rest := fun hh => h (Or.inr hh)
      simp only [List.cons_append, lookup, if_neg hk]
      exact ih hr

theorem setKey_of_not_mem {l : List (String × α)} {k : String} (v : α)
    (h : k ∉ keys l) : setKey l k v = l ++ [(k, v)] := by
  simp [setKey, h]

theorem mem_of_mem_removeKey {l : List (String × α)} {n : String}
    {p : String × α} (h : p ∈ removeKey l n) : p ∈ l := by
  induction l with
  | nil => simp [removeKey] at h
  | cons q rest ih =>
    cases q with
    | mk k w =>
      simp only [removeKey] at h
      by_cases hk : k = n
      · simp only [if_pos hk] at h
        exact List.mem_cons_of_mem _ h
      · simp only [if_neg hk, List.mem_cons] at h
        rcases h with h | h
        · exact h ▸ List.mem_cons_self _ _
        · exact List.mem_cons_of_mem _ (ih h)

theorem mem_removeKey_of_mem {l : List (String × α)} {n : String}
    {p : String × α} (hp : p ∈ l) (hne : p.1 ≠ n) : p ∈ removeKey l n := by
  induction l with
  | nil => simp at hp
  | cons q rest ih =>
    cases q with
    | mk k w =>
      simp only [removeKey]
      rcases List.mem_cons.mp hp with rfl | h
      · have hk : ¬(k = n) := hne
        simp [if_neg hk]
      · by_cases hk : k = n
        · simpa [if_pos hk] using h
        · simp only [if_neg hk, List.mem_cons]
          exact Or.inr (ih h)

theorem keys_removeKey_subset {l : List (String × α)} {n : String} :
    keys (removeKey l n) ⊆ keys l := by
  intro x hx
  simp only [keys, List.mem_map] at hx
  obtain ⟨p, hp, rfl⟩ := hx
  exact List.mem_map_of_mem _ (mem_of_mem_removeKey hp)

theorem keys_removeKey_nodup {l : List (String × α)} {n : String}
    (h : (keys l).Nodup) : (keys (removeKey l n)).Nodup := by
  induction l with
  | nil => simp [removeKey]
  | cons q rest ih =>
    cases q with
    | mk k w =>
      simp only [keys_cons, List.nodup_cons] at h
      simp only [removeKey]
      by_cases hk : k = n
      · simp only [if_pos hk]
        exact h.2
      · simp only [if_neg hk, keys_cons, List.nodup_cons]
        exact ⟨fun hc => h.1 (keys_removeKey_subset hc), ih h.2⟩

theorem length_removeKey_of_mem {l : List (String × α)} {n : String}
    (h : n ∈ keys l) : (removeKey l n).length + 1 = l.length := by
  induction l with
  | nil => simp [keys] at h
  | cons q rest ih =>
    cases q with
    | mk k w =>
      simp only [removeKey]
      by_cases hk : k = n
      · simp [if_pos hk]
      · simp only [keys_cons, List.mem_cons] at h
        have : n ∈ keys rest := h.resolve_left (fun hh => hk hh.symm)
        simp only [if_neg hk, List.length_cons]
        rw [← ih this]

theorem not_mem_keys_removeKey {l : List (String × α)} {n : String}
    (h : (keys l).Nodup) : n ∉ keys (removeKey l n) := by
  induction l with
  | nil => simp [removeKey, keys]
  | cons q rest ih =>
    cases q with
    | mk k w =>
      simp only [keys_cons, List.nodup_cons] at h
      simp only [removeKey]
      by_cases hk : k = n
      · simp only [if_pos hk]
        rw [← hk]
        exact h.1
      · simp only [if_neg hk, keys_cons, List.mem_cons]
        push_neg
        exact ⟨fun hh => hk hh.symm, ih h.2⟩

theorem mem_keys_removeKey {l : List (String × α)} {n d : String}
    (hd : d ∈ keys l) (hne : d ≠ n) : d ∈ keys (removeKey l n) := by
  simp only [keys, List.mem_map] at hd
  obtain ⟨p, hp, rfl⟩ := hd
  exact List.mem_map_of_mem _ (mem_removeKey_of_mem hp hne)

theorem lookup_unique_of_nodup {l : List (String × α)} {n : String} {v : α}
    (hnd : (keys l).Nodup) (h : (n, v) ∈ l) : lookup l n = some v := by
  induction l with
  | nil => simp at h
  | cons q rest ih =>
    cases q with
    | mk k w =>
      simp only [keys_cons, List.nodup_cons] at hnd
      rcases List.mem_cons.mp h with h | h
      · cases h
        simp [lookup]
      · have hk : k ≠ n := by
          intro hh
          exact hnd.1 (hh ▸ List.mem_map_of_mem _ h)
        simp only [lookup, if_neg hk]
        exact ih hnd.2 h

end AssocLemmas

theorem depKwargs_error_eq {ps : List String} :
    ∀ {ir : List (String × Res)} {e : PyExn},
      depKwargs ps ir = .error e → e = .attributeError := by
  intro ir
  induction ir with
  | nil => intro e h; simp [depKwargs] at h
  | cons p rest ih =>
    intro e h
    cases p with
    | mk n r =>
      simp only [depKwargs] at h
      by_cases hn : n ∈ ps
      · simp only [if_pos hn] at h
        cases r with
        | value v =>
          cases hd : depKwargs ps rest with
          | error e2 =>
            rw [hd] at h
            simp [Except.map] at h
            exact h ▸ ih hd
          | ok ks =>
            rw [hd] at h
            simp [Except.map] at h
        | errors es =>
          simp at h
          exact h.symm
      · simp only [if_neg hn] at h
        exact ih h

theorem applyValidator_context_error {vd : Validator} {cur ctx : PyVal}
    {ir : List (String × Res)} {e : PyExn}
    (h : applyValidator vd cur ctx ir = .error e) :
    e = .valueError "Context is required for evaluating this schema." ∨
      e = .attributeError ∨ e = .typeError := by
  simp only [applyValidator] at h
  by_cases h0 : vd.params = []
  · simp [h0] at h
  · simp only [if_neg h0] at h
    by_cases h1 : "context" ∈ vd.params ∧ ctx = PyVal.empty ∧
        vd.ctxDefault ≠ some PyVal.empty
    · simp only [if_pos h1] at h
      simp at h
      exact Or.inl h.symm
    · simp only [if_neg h1] at h
      cases hd : depKwargs vd.params ir with
      | error e2 =>
        rw [hd] at h
        simp at h
        exact Or.inr (Or.inl (h ▸ depKwargs_error_eq hd))
      | ok dks =>
        rw [hd] at h
        simp only at h
        by_cases h2 : (keys dks).any
            (fun k => (keys (sentinelKwargs vd.params ctx cur)).contains k) = true
        · simp only [if_pos h2] at h
          simp at h
          exact Or.inr (Or.inr h.symm)
        · simp only [if_neg h2] at h
          simp at h

theorem Field.size_pos (f : Field) : 1 ≤ Field.size f := by
  cases f
  simp only [Field.size]
  omega

theorem sizeVs_ge_of_mem {vs : List Validator} {vd : Validator}
    (h : vd ∈ vs) : Validator.size vd + 1 ≤ Field.sizeVs vs := by
  induction vs with
  | nil => simp at h
  | cons w rest ih =>
    simp only [Field.sizeVs]
    rcases List.mem_cons.mp h with rfl | h
    · omega
    · have := ih h
      omega

theorem size_inner_lt {f : Field} {vd : Validator} {fi : Field}
    (hv : vd ∈ f.validators) (hi : vd.inner = some fi) :
    Field.size fi < Field.size f := by
  cases f with
  | mk vs a st sf nb dep =>
    simp only [Field.validators_mk] at hv
    have h1 := sizeVs_ge_of_mem hv
    cases vd with
    | mk ps cd fn i c =>
      simp only [Validator.inner_mk] at hi
      subst hi
      simp only [Validator.size] at h1
      simp only [Field.size]
      omega

theorem runInnerGo_congr {recur₁ recur₂ :
      Field → List PathKey → PyVal → PyVal → List (String × Res) →
        Except PyExn Res}
    {fi : Field} {ctx : PyVal} {ir : List (String × Res)}
    (h : ∀ p v, recur₁ fi p v ctx ir = recur₂ fi p v ctx ir) :
    ∀ (xs : List PyVal) (idx : Nat),
      runInnerGo recur₁ fi ctx ir xs idx = runInnerGo recur₂ fi ctx ir xs idx := by
  intro xs
  induction xs with
  | nil => intro idx; rfl
  | cons x rest ih =>
    intro idx
    simp only [runInnerGo]
    rw [h, ih]

theorem chainGo_congr {recur₁ recur₂ :
      Field → List PathKey → PyVal → PyVal → List (String × Res) →
        Except PyExn Res}
    {p : List PathKey} {ctx : PyVal} {ir : List (String × Res)} :
    ∀ (vs : List Validator) (cur : PyVal),
      (∀ vd ∈ vs, ∀ fi, vd.inner = some fi →
        ∀ q w, recur₁ fi q w ctx ir = recur₂ fi q w ctx ir) →
      chainGo recur₁ p ctx ir vs cur = chainGo recur₂ p ctx ir vs cur := by
  intro vs
  induction vs with
  | nil => intro cur _; rfl
  | cons vd rest ih =>
    intro cur hc
    have htail : ∀ w ∈ rest, ∀ fi, w.inner = some fi →
        ∀ q z, recur₁ fi q z ctx ir = recur₂ fi q z ctx ir :=
      fun w hw => hc w (List.mem_cons_of_mem _ hw)
    simp only [chainGo]
    cases hav : applyValidator vd cur ctx ir with
    | error e => rfl
    | ok vret =>
      cases vret with
      | raw x => exact ih x htail
      | err e => rfl
      | errs es => rfl
      | wrapped values =>
        cases hin : vd.inner with
        | none => rfl
        | some fi =>
          have hr : runInnerGo recur₁ fi ctx ir values 0 =
              runInnerGo recur₂ fi ctx ir values 0 :=
            runInnerGo_congr
              (fun q z => hc vd (List.mem_cons_self _ _) fi hin q z) values 0
          simp only [hr]
          split
          · rfl
          · split
            · split
              · rfl
              · exact ih _ htail
            · rfl

theorem runValidatorsFuel_mono :
    ∀ (n : Nat) (f : Field), Field.size f ≤ n →
      ∀ p v c ir, runValidatorsFuel (n + 1) f p v c ir =
        run_validators f p v c ir := by
  intro n
  induction n using Nat.strong_induction_on with
  | _ n IH =>
    intro f hf p v c ir
    rw [run_validators]
    simp only [runValidatorsFuel]
    by_cases hcond : (v = PyVal.omitted ∨ v = PyVal.none) ∧
        (f.validators.any (fun vd => vd.params.contains "value")) = true
    · rw [if_pos hcond, if_pos hcond]
    · rw [if_neg hcond, if_neg hcond]
      apply chainGo_congr
      intro vd hvd fi hfi q w
      have hlt : Field.size fi < Field.size f := size_inner_lt hvd hfi
      have hpos : 1 ≤ Field.size f := Field.size_pos f
      obtain ⟨m, rfl⟩ : ∃ m, n = m + 1 := ⟨n - 1, by omega⟩
      obtain ⟨k, hk⟩ : ∃ k, Field.size f = k + 1 :=
        ⟨Field.size f - 1, by omega⟩
      rw [hk]
      rw [IH m (by omega) fi (by omega) q w c ir]
      rw [IH k (by omega) fi (by omega) q w c ir]

theorem chainGo_ok_errors_field {recur :
      Field → List PathKey → PyVal → PyVal → List (String × Res) →
        Except PyExn Res}
    {p : List PathKey} {ctx : PyVal} {ir : List (String × Res)} :
    ∀ (vs : List Validator) (cur : PyVal) (es : Errors),
      chainGo recur p ctx ir vs cur = .ok (.errors es) → es.field = p := by
  intro vs
  induction vs with
  | nil => intro cur es h; simp [chainGo, finalWrap] at h
  | cons vd rest ih =>
    intro cur es h
    simp only [chainGo] at h
    split at h
    · exact absurd h (by simp)
    · exact ih _ es h
    · simp only [Except.ok.injEq, Res.errors.injEq] at h
      rw [← h]
    · simp only [Except.ok.injEq, Res.errors.injEq] at h
      rw [← h]
    · split at h
      · exact absurd h (by simp)
      · split at h
        · exact absurd h (by simp)
        · split at h
          · split at h
            · exact absurd h (by simp)
            · exact ih _ es h
          · simp only [Except.ok.injEq, Res.errors.injEq] at h
            rw [← h]

theorem runValidatorsFuel_ok_errors_field {n : Nat} {f : Field}
    {p : List PathKey} {v ctx : PyVal} {ir : List (String × Res)}
    {es : Errors}
    (h : runValidatorsFuel n f p v ctx ir = .ok (.errors es)) :
    es.field = p := by
  cases n with
  | zero => simp [runValidatorsFuel] at h
  | succ m =>
    simp only [runValidatorsFuel] at h
    by_cases hcond : (v = PyVal.omitted ∨ v = PyVal.none) ∧
        (f.validators.any (fun vd => vd.params.contains "value")) = true
    · rw [if_pos hcond] at h
      by_cases hn : v = PyVal.none
      · rw [if_pos hn] at h
        by_cases ha : f.nullability.allow_none = true
        · simp [ha] at h
        · simp only [ha, Bool.false_eq_true, if_false, Except.ok.injEq,
            Res.errors.injEq] at h
          rw [← h]
      · rw [if_neg hn] at h
        cases hnb : f.nullability with
        | required b =>
          rw [hnb] at h
          simp only [Except.ok.injEq, Res.errors.injEq] at h
          rw [← h]
        | optional b ov => rw [hnb] at h; simp at h
    · rw [if_neg hcond] at h
      exact chainGo_ok_errors_field _ _ _ h

theorem run_validators_ok_errors_field {f : Field} {p : List PathKey}
    {v ctx : PyVal} {ir : List (String × Res)} {es : Errors}
    (h : run_validators f p v ctx ir = .ok (.errors es)) : es.field = p :=
  runValidatorsFuel_ok_errors_field h

theorem any_contains_value {vs : List Validator}
    (hv : (vs.any (fun vd => vd.params.contains "value")) = true) :
    ∃ vd ∈ vs, "value" ∈ vd.params := by
  rcases List.any_eq_true.mp hv with ⟨vd, hmem, hc⟩
  exact ⟨vd, hmem, by simpa using hc⟩

/-- C2: for a field whose chain declares a `value` parameter and an
omitted input, `run_validators` short-circuits before any validator can
run: an `Optional` nullability yields `Value` of the configured
`omitted_value` (for every context and intermediate results, so no
validator and no context check is ever consulted), and a `Required`
nullability yields exactly one error with msg `"Value is required."`
whose flattened path is the field's path. -/
theorem c2_omitted_nullability (f : Field) (path : List PathKey)
    (ctx : PyVal) (ir : List (String × Res))
    (hv : (f.validators.any (fun vd => vd.params.contains "value")) = true) :
    (∀ b ov, f.nullability = .optional b ov →
      run_validators f path PyVal.omitted ctx ir = .ok (.value ov)) ∧
    (∀ b, f.nullability = .required b →
      run_validators f path PyVal.omitted ctx ir =
        .ok (.errors ⟨[⟨"Value is required.", []⟩], path⟩) ∧
      (Errors.mk [⟨"Value is required.", []⟩] path).flatten =
        [⟨"Value is required.", path⟩]) := by
  constructor
  · intro b ov hopt
    rw [run_validators]
    simp [runValidatorsFuel, hv, hopt]
    intro hall
    obtain ⟨vd, hmem, hval⟩ := any_contains_value hv
    exact absurd hval (hall vd hmem)
  · intro b hreq
    refine ⟨?_, by simp [Errors.flatten, wrapError]⟩
    rw [run_validators]
    simp [runValidatorsFuel, hv, hreq]
    intro hall
    obtain ⟨vd, hmem, hval⟩ := any_contains_value hv
    exact absurd hval (hall vd hmem)

/-- C2 witness: the optional string field yields its omitted default, the
required one yields the single `"Value is required."` error at its path. -/
theorem c2_omitted_nullability_witness :
    run_validators optStrF [.s "x"] PyVal.omitted PyVal.empty [] =
      .ok (.value PyVal.omitted) ∧
    run_validators strF [.s "x"] PyVal.omitted PyVal.empty [] =
      .ok (.errors ⟨[⟨"Value is required.", []⟩], [.s "x"]⟩) :=
  ⟨(c2_omitted_nullability optStrF [.s "x"] PyVal.empty [] (by decide)).1
      true PyVal.omitted rfl,
   ((c2_omitted_nullability strF [.s "x"] PyVal.empty [] (by decide)).2
      false rfl).1⟩

/-- C3: for a field whose chain declares a `value` parameter and a `None`
input, `run_validators` short-circuits before any validator can run: when
the nullability's `allow_none` holds, the `None` passes through untouched
as a `Value` (for every context and intermediate results); otherwise a
single error with msg `"Value is required, and must not be None."` (the
spec's `null` is Python's `None`) is produced, flattening to the field's
path. -/
theorem c3_none_nullability (f : Field) (path : List PathKey)
    (ctx : PyVal) (ir : List (String × Res))
    (hv : (f.validators.any (fun vd => vd.params.contains "value")) = true) :
    (f.nullability.allow_none = true →
      run_validators f path PyVal.none ctx ir = .ok (.value PyVal.none)) ∧
    (f.nullability.allow_none = false →
      run_validators f path PyVal.none ctx ir =
        .ok (.errors
          ⟨[⟨"Value is required, and must not be None.", []⟩], path⟩) ∧
      (Errors.mk [⟨"Value is required, and must not be None.", []⟩]
          path).flatten =
        [⟨"Value is required, and must not be None.", path⟩]) := by
  constructor
  · intro ha
    rw [run_validators]
    simp [runValidatorsFuel, hv, ha]
    intro hall
    obtain ⟨vd, hmem, hval⟩ := any_contains_value hv
    exact absurd hval (hall vd hmem)
  · intro ha
    refine ⟨?_, by simp [Errors.flatten, wrapError]⟩
    rw [run_validators]
    simp [runValidatorsFuel, hv, ha]
    intro hall
    obtain ⟨vd, hmem, hval⟩ := any_contains_value hv
    exact absurd hval (hall vd hmem)

/-- C3 witness: a field allowing `None` passes it through; the plain
required string field produces the single error at its path. -/
theorem c3_none_nullability_witness :
    run_validators optStrF [.s "x"] PyVal.none PyVal.empty [] =
      .ok (.value PyVal.none) ∧
    run_validators strF [.s "x"] PyVal.none PyVal.empty [] =
      .ok (.errors
        ⟨[⟨"Value is required, and must not be None.", []⟩], [.s "x"]⟩) :=
  ⟨(c3_none_nullability optStrF [.s "x"] PyVal.empty [] (by decide)).1
      (by decide),
   ((c3_none_nullability strF [.s "x"] PyVal.empty [] (by decide)).2
      (by decide)).1⟩

/-- C9: when the validator at any position of a field's chain returns an
`Error` or an `Errors`, the chain returns at once with the error scoped
under the field's path (flattening prepends the path), and the validators
after that position are never consulted (the result does not depend on
them); the final conjunct ties the chain runner to `run_validators` when
the nullability short-circuit does not apply. -/
theorem c9_chain_stops
    (recur : Field → List PathKey → PyVal → PyVal → List (String × Res) →
      Except PyExn Res)
    (path : List PathKey) (ctx : PyVal) (ir : List (String × Res))
    (vd : Validator) (rest : List Validator) (cur : PyVal) :
    (∀ e, applyValidator vd cur ctx ir = .ok (.err e) →
      chainGo recur path ctx ir (vd :: rest) cur =
        .ok (.errors ⟨[e], path⟩) ∧
      (Errors.mk [e] path).flatten = [⟨e.msg, path ++ e.field⟩]) ∧
    (∀ es, applyValidator vd cur ctx ir = .ok (.errs es) →
      chainGo recur path ctx ir (vd :: rest) cur =
        .ok (.errors ⟨es.flatten, path⟩) ∧
      (Errors.mk es.flatten path).flatten =
        es.errors.map (fun e => ⟨e.msg, path ++ es.field ++ e.field⟩)) ∧
    (∀ f : Field, f.validators = vd :: rest →
      ¬((cur = PyVal.omitted ∨ cur = PyVal.none) ∧
        (f.validators.any (fun w => w.params.contains "value")) = true) →
      run_validators f path cur ctx ir =
        chainGo (runValidatorsFuel (Field.size f)) path ctx ir
          (vd :: rest) cur) := by
  refine ⟨?_, ?_, ?_⟩
  · intro e he
    refine ⟨?_, by simp [Errors.flatten, wrapError]⟩
    simp only [chainGo, he]
  · intro es he
    refine ⟨?_, by simp [Errors.flatten, wrapError, List.map_map,
      List.append_assoc, Function.comp]⟩
    simp only [chainGo, he]
  · intro f hvf hns
    rw [run_validators]
    simp only [runValidatorsFuel]
    rw [if_neg hns, hvf]

/-- C9 witness: `strfield` rejecting an int stops the chain at once. -/
theorem c9_chain_stops_witness :
    chainGo run_validators [.s "x"] PyVal.empty []
      (strfieldV :: [strfieldV]) (.int 3) =
      .ok (.errors ⟨[⟨"Unhandled type", []⟩], [.s "x"]⟩) :=
  ((c9_chain_stops run_validators [.s "x"] PyVal.empty [] strfieldV
      [strfieldV] (.int 3)).1 ⟨"Unhandled type", []⟩ (by decide)).1

/-- C4 counterexample: the claim says no context-required failure is
raised when the `context` parameter has a default, but a validator whose
`context` default is `None` (a default, yet not the `empty` sentinel)
still raises the fatal `ValueError` when `clean` is called without a
context. -/
theorem c4_counterexample :
    clean ctxSchema (.dict [("a", .int 1)]) PyVal.empty =
      .error (.valueError "Context is required for evaluating this schema.") := by
  decide

/-- C4 (amended): when a validator that declares a `context` parameter is
invoked with no context supplied, `inject_deps` raises the fatal
`ValueError("Context is required for evaluating this schema.")` if and
only if the parameter's declared default is not the `empty` sentinel (a
default of `None` still raises; only the `empty`-sentinel default or a
supplied context suppresses it); the raise propagates out of the
evaluation loop as an exception, bypassing error aggregation. -/
theorem c4_context_required_amended (vd : Validator) (cur ctx : PyVal)
    (ir : List (String × Res)) :
    ("context" ∈ vd.params ∧ ctx = PyVal.empty ∧
        vd.ctxDefault ≠ some PyVal.empty →
      applyValidator vd cur ctx ir =
        .error
          (.valueError "Context is required for evaluating this schema.")) ∧
    (ctx ≠ PyVal.empty ∨ vd.ctxDefault = some PyVal.empty →
      applyValidator vd cur ctx ir ≠
        .error
          (.valueError "Context is required for evaluating this schema.")) ∧
    (∀ (data : Data) (delayed rest : List (String × Field)) (fuel : Nat)
        (results : List (String × Res)) (fname : String) (fdef : Field)
        (e : PyExn),
      resolveValue data
          (if fdef.accepts.isEmpty then [fname] else fdef.accepts) ≠
        PyVal.empty →
      run_validators fdef [.s fname]
          (resolveValue data
            (if fdef.accepts.isEmpty then [fname] else fdef.accepts))
          ctx results = .error e →
      cleanLoop data ctx delayed (fuel + 1) ((fname, fdef) :: rest)
          results = .error e) := by
  refine ⟨?_, ?_, ?_⟩
  · intro h
    have hne : vd.params ≠ [] := by
      intro h0
      rw [h0] at h
      exact absurd h.1 (List.not_mem_nil _)
    simp only [applyValidator, if_neg hne, if_pos h]
  · intro h hc
    have hcond : ¬("context" ∈ vd.params ∧ ctx = PyVal.empty ∧
        vd.ctxDefault ≠ some PyVal.empty) := by
      rcases h with h | h
      · exact fun hh => h hh.2.1
      · exact fun hh => hh.2.2 h
    simp only [applyValidator] at hc
    by_cases h0 : vd.params = []
    · simp [h0] at hc
    · rw [if_neg h0, if_neg hcond] at hc
      cases hd : depKwargs vd.params ir with
      | error e2 =>
        rw [hd] at hc
        simp only [Except.error.injEq] at hc
        have := depKwargs_error_eq hd
        rw [hc] at this
        simp at this
      | ok dks =>
        rw [hd] at hc
        simp only at hc
        by_cases h2 : ((keys dks).any
            (fun k => (keys (sentinelKwargs vd.params ctx cur)).contains k)) = true
        · rw [if_pos h2] at hc
          simp at hc
        · rw [if_neg h2] at hc
          simp at hc
  · intro data delayed rest fuel results fname fdef e hres hrun
    simp only [cleanLoop]
    rw [if_neg hres, hrun]

/-- C4 witness for the amended claim: with no context supplied, the
`None`-default validator raises and the `empty`-default validator does
not. -/
theorem c4_context_required_amended_witness :
    applyValidator ctxDefaultNoneV (.int 1) PyVal.empty [] =
      .error
        (.valueError "Context is required for evaluating this schema.") ∧
    applyValidator ctxEmptyDefaultV (.int 1) PyVal.empty [] ≠
      .error
        (.valueError "Context is required for evaluating this schema.") :=
  ⟨(c4_context_required_amended ctxDefaultNoneV (.int 1) PyVal.empty []).1
      (by decide),
   (c4_context_required_amended ctxEmptyDefaultV (.int 1) PyVal.empty
      []).2.1 (Or.inr rfl)⟩

/-- C8 (code bug): `getter` evaluates `getattr(dict_or_obj, field_name,
default)` for a non-dict source but never returns it, so every attribute
lookup yields `None` instead of the attribute value or the default; as a
consequence `clean` against an object differs from `clean` against the
equivalent mapping. -/
theorem c8_getter_object_bug :
    getter (.obj [("a", .int 5)]) "a" PyVal.omitted = PyVal.none ∧
    getter (.dict [("a", .int 5)]) "a" PyVal.omitted = .int 5 ∧
    getter (.obj []) "a" PyVal.omitted = PyVal.none ∧
    clean sd2 (.dict [("a", .str "hi")]) PyVal.empty ≠
      clean sd2 (.obj [("a", .str "hi")]) PyVal.empty := by
  refine ⟨rfl, rfl, rfl, ?_⟩
  decide

theorem finishClean_ok_inr {fieldNames : List String}
    {results : List (String × Res)} {rec : List (String × PyVal)}
    (h : finishClean fieldNames results = .ok (.inr rec)) :
    (∀ k, k ∈ keys rec ↔ k ∈ fieldNames) ∧ "self" ∉ keys rec ∧
    rec = results.filterMap (fun p =>
      match p.2 with
      | .value v => if p.1 = "self" then Option.none else some (p.1, v)
      | .errors _ => Option.none) ∧
    collectErrors results = [] := by
  simp only [finishClean] at h
  by_cases herr : (collectErrors results).isEmpty
  · rw [if_pos herr] at h
    split at h
    · rename_i hchk
      simp only [Except.ok.injEq, Sum.inr.injEq] at h
      subst h
      rw [Bool.and_eq_true] at hchk
      obtain ⟨h1, h2⟩ := hchk
      refine ⟨?_, ?_, rfl, List.isEmpty_iff.mp herr⟩
      · intro k
        constructor
        · intro hk
          have := List.all_eq_true.mp h1 _ hk
          simpa using this
        · intro hk
          have := List.all_eq_true.mp h2 _ hk
          simpa using this
      · intro hmem
        simp only [keys, List.mem_map] at hmem
        obtain ⟨p, hp, hp1⟩ := hmem
        rw [List.mem_filterMap] at hp
        obtain ⟨q, _, hfq⟩ := hp
        cases hq2 : q.2 with
        | value v =>
          rw [hq2] at hfq
          simp only at hfq
          by_cases hself : q.1 = "self"
          · rw [if_pos hself] at hfq
            simp at hfq
          · rw [if_neg hself] at hfq
            simp only [Option.some.injEq] at hfq
            rw [← hfq] at hp1
            exact hself hp1
        | errors es =>
          rw [hq2] at hfq
          simp at hfq
    · exact absurd h (by simp)
  · rw [if_neg herr] at h
    exact absurd h (by simp)

/-- C10: whenever `clean` returns a validated record, the record's keys
are exactly the declared field names (none missing, none extra) and the
synthetic `"self"` entry is absent. -/
theorem c10_record_keys (sd : SchemaDefinition) (data : Data) (ctx : PyVal)
    (rec : List (String × PyVal))
    (h : clean sd data ctx = .ok (.inr rec)) :
    (∀ k, k ∈ keys rec ↔ k ∈ keys sd.fields) ∧ "self" ∉ keys rec := by
  simp only [clean] at h
  split at h
  · exact absurd h (by simp)
  · have hfin := finishClean_ok_inr h
    exact ⟨hfin.1, hfin.2.1⟩

/-- C10 witness: a concrete cleaned record carries exactly the declared
names and no `"self"`. -/
theorem c10_record_keys_witness :
    ("a" ∈ keys [("a", PyVal.str "hi"), ("b", PyVal.str "hi!")] ↔
      "a" ∈ keys sd2.fields) ∧
    "self" ∉ keys [("a", PyVal.str "hi"), ("b", PyVal.str "hi!")] :=
  ⟨(c10_record_keys sd2 (.dict [("a", .str "hi")]) PyVal.empty
      [("a", .str "hi"), ("b", .str "hi!")] (by decide)).1 "a",
   (c10_record_keys sd2 (.dict [("a", .str "hi")]) PyVal.empty
      [("a", .str "hi"), ("b", .str "hi!")] (by decide)).2⟩

theorem mem_of_lookup_some {α : Type} {l : List (String × α)} {n : String}
    {v : α} (h : lookup l n = some v) : (n, v) ∈ l := by
  induction l with
  | nil => simp [lookup] at h
  | cons p rest ih =>
    cases p with
    | mk k w =>
      simp only [lookup] at h
      by_cases hk : k = n
      · rw [if_pos hk] at h
        simp only [Option.some.injEq] at h
        subst hk
        rw [h]
        exact List.mem_cons_self _ _
      · rw [if_neg hk] at h
        exact List.mem_cons_of_mem _ (ih h)

theorem exists_of_mem_keys {α : Type} {l : List (String × α)} {n : String}
    (h : n ∈ keys l) : ∃ v, (n, v) ∈ l := by
  simp only [keys, List.mem_map] at h
  obtain ⟨p, hp, hp1⟩ := h
  exact ⟨p.2, by rw [← hp1]; simpa using hp⟩

theorem entry_unique_of_nodup_keys {α : Type} {l : List (String × α)}
    {n : String} {a b : α} (hnd : (keys l).Nodup) (ha : (n, a) ∈ l)
    (hb : (n, b) ∈ l) : a = b := by
  have h1 := lookup_unique_of_nodup hnd ha
  have h2 := lookup_unique_of_nodup hnd hb
  rw [h1] at h2
  simpa using h2

theorem findMovable_some {deps : List (String × List String)}
    {seen : List String} {n : String} (h : findMovable deps seen = some n) :
    ∃ dl, (n, dl) ∈ deps ∧
      (dl.isEmpty || dl.all (fun d => seen.contains d)) = true := by
  simp only [findMovable] at h
  cases hfind : deps.find?
      (fun nd => nd.2.isEmpty || nd.2.all (fun d => seen.contains d)) with
  | none => rw [hfind] at h; simp at h
  | some nd =>
    rw [hfind] at h
    have h2 : nd.1 = n := Option.some.inj h
    have hp := List.find?_some hfind
    simp only at hp
    refine ⟨nd.2, ?_, hp⟩
    rw [← h2]
    simpa using List.mem_of_find?_eq_some hfind

theorem findMovable_none {deps : List (String × List String)}
    {seen : List String} (h : findMovable deps seen = Option.none) :
    ∀ nd ∈ deps,
      ¬((nd.2.isEmpty || nd.2.all (fun d => seen.contains d)) = true) := by
  simp only [findMovable] at h
  cases hfind : deps.find?
      (fun nd => nd.2.isEmpty || nd.2.all (fun d => seen.contains d)) with
  | some nd => rw [hfind] at h; simp at h
  | none =>
    intro nd hnd hp
    exact List.find?_eq_none.mp hfind nd hnd hp

theorem checkLoopsAux_cyclic :
    ∀ (fuel : Nat) (deps : List (String × List String))
      (seen : List String) (S : List String),
      deps.length ≤ fuel → (keys deps).Nodup → S ≠ [] →
      (∀ n ∈ S, n ∉ seen) →
      (∀ n ∈ S, ∃ dl, (n, dl) ∈ deps ∧ ∃ d ∈ dl, d ∈ S) →
      checkLoopsAux fuel deps seen =
        .error (.valueError "Field dependencies could not be resolved.") := by
  intro fuel
  induction fuel with
  | zero =>
    intro deps seen S hlen hnd hne hseen hS
    obtain ⟨n0, hn0⟩ : ∃ n0, n0 ∈ S := by
      cases S with
      | nil => exact absurd rfl hne
      | cons a t => exact ⟨a, List.mem_cons_self _ _⟩
    obtain ⟨dl, hdl, _⟩ := hS n0 hn0
    have : deps = [] := List.length_eq_zero.mp (Nat.le_zero.mp hlen)
    rw [this] at hdl
    simp at hdl
  | succ fuel ih =>
    intro deps seen S hlen hnd hne hseen hS
    obtain ⟨n0, hn0⟩ : ∃ n0, n0 ∈ S := by
      cases S with
      | nil => exact absurd rfl hne
      | cons a t => exact ⟨a, List.mem_cons_self _ _⟩
    cases deps with
    | nil =>
      obtain ⟨dl, hdl, _⟩ := hS n0 hn0
      simp at hdl
    | cons d ds =>
      simp only [checkLoopsAux]
      cases hfm : findMovable (d :: ds) seen with
      | none => rfl
      | some n =>
        obtain ⟨dl0, hdl0, hpred⟩ := findMovable_some hfm
        by_cases hniS : n ∈ S
        · obtain ⟨dl, hdl, dd, hdd, hddS⟩ := hS n hniS
          have hdleq : dl = dl0 := entry_unique_of_nodup_keys hnd hdl hdl0
          subst hdleq
          rcases Bool.or_eq_true_iff.mp hpred with hp | hp
          · rw [List.isEmpty_iff.mp hp] at hdd
            simp at hdd
          · have := List.all_eq_true.mp hp dd hdd
            have hin : dd ∈ seen := by simpa using this
            exact absurd hin (hseen dd hddS)
        · change (if n ∈ seen then
              Except.error
                (PyExn.valueError "Field dependencies could not be resolved.")
            else checkLoopsAux fuel (removeKey (d :: ds) n) (seen ++ [n])) = _
          by_cases hns : n ∈ seen
          · rw [if_pos hns]
          · rw [if_neg hns]
            have hnk : n ∈ keys (d :: ds) :=
              List.mem_map_of_mem _ hdl0
            apply ih (removeKey (d :: ds) n) (seen ++ [n]) S
            · have := length_removeKey_of_mem (l := d :: ds) (n := n) hnk
              omega
            · exact keys_removeKey_nodup hnd
            · exact hne
            · intro m hm
              simp only [List.mem_append, List.mem_singleton]
              push_neg
              exact ⟨hseen m hm, fun he => hniS (he ▸ hm)⟩
            · intro m hm
              obtain ⟨dl, hdl, hd⟩ := hS m hm
              refine ⟨dl, ?_, hd⟩
              apply mem_removeKey_of_mem hdl
              intro hm1
              exact hniS (hm1 ▸ hm)

theorem checkLoopsAux_acyclic :
    ∀ (fuel : Nat) (deps : List (String × List String))
      (seen : List String),
      deps.length ≤ fuel → (keys deps).Nodup →
      (∀ nd ∈ deps, nd.1 ∉ seen) →
      (∀ nd ∈ deps, ∀ d ∈ nd.2, d ∈ seen ∨ d ∈ keys deps) →
      (¬∃ S : List String, S ≠ [] ∧
        ∀ n ∈ S, ∃ dl, (n, dl) ∈ deps ∧ ∃ d ∈ dl, d ∈ S) →
      checkLoopsAux fuel deps seen = .ok () := by
  intro fuel
  induction fuel with
  | zero =>
    intro deps seen hlen _ _ _ _
    have : deps = [] := List.length_eq_zero.mp (Nat.le_zero.mp hlen)
    rw [this]
    rfl
  | succ fuel ih =>
    intro deps seen hlen hnd hseen hclosed hnoS
    cases deps with
    | nil => rfl
    | cons d ds =>
      simp only [checkLoopsAux]
      cases hfm : findMovable (d :: ds) seen with
      | none =>
        exfalso
        apply hnoS
        refine ⟨keys (d :: ds), by simp [keys], ?_⟩
        intro n hn
        obtain ⟨dl, hdl⟩ := exists_of_mem_keys hn
        refine ⟨dl, hdl, ?_⟩
        have hnp := findMovable_none hfm (n, dl) hdl
        simp only [Bool.or_eq_true, not_or] at hnp
        obtain ⟨hp1, hp2⟩ := hnp
        have : ∃ dd ∈ dl, dd ∉ seen := by
          by_contra hall
          push_neg at hall
          apply hp2
          exact List.all_eq_true.mpr (fun dd hdd => by
            simpa using hall dd hdd)
        obtain ⟨dd, hdd, hdds⟩ := this
        refine ⟨dd, hdd, ?_⟩
        rcases hclosed (n, dl) hdl dd hdd with h | h
        · exact absurd h hdds
        · exact h
      | some n =>
        obtain ⟨dl0, hdl0, _⟩ := findMovable_some hfm
        have hns : n ∉ seen := hseen (n, dl0) hdl0
        change (if n ∈ seen then
            Except.error
              (PyExn.valueError "Field dependencies could not be resolved.")
          else checkLoopsAux fuel (removeKey (d :: ds) n) (seen ++ [n])) = _
        rw [if_neg hns]
        have hnk : n ∈ keys (d :: ds) := List.mem_map_of_mem _ hdl0
        apply ih
        · have := length_removeKey_of_mem (l := d :: ds) (n := n) hnk
          omega
        · exact keys_removeKey_nodup hnd
        · intro nd hnd2
          have hmem := mem_of_mem_removeKey hnd2
          simp only [List.mem_append, List.mem_singleton]
          push_neg
          refine ⟨hseen nd hmem, ?_⟩
          intro he
          have : nd.1 ∈ keys (removeKey (d :: ds) n) :=
            List.mem_map_of_mem _ hnd2
          rw [he] at this
          exact not_mem_keys_removeKey hnd this
        · intro nd hnd2 dd hdd
          have hmem := mem_of_mem_removeKey hnd2
          rcases hclosed nd hmem dd hdd with h | h
          · exact Or.inl (List.mem_append_left _ h)
          · by_cases hde : dd = n
            · exact Or.inl (List.mem_append_right _ (by simp [hde]))
            · exact Or.inr (mem_keys_removeKey h hde)
        · intro hS
          apply hnoS
          obtain ⟨S, hne, hSp⟩ := hS
          refine ⟨S, hne, fun m hm => ?_⟩
          obtain ⟨dl, hdl, hd⟩ := hSp m hm
          exact ⟨dl, mem_of_mem_removeKey hdl, hd⟩

theorem payloads_error_eq :
    ∀ {rs : List Res} {e : PyExn},
      payloads rs = .error e → e = .attributeError := by
  intro rs
  induction rs with
  | nil => intro e h; simp [payloads] at h
  | cons r rest ih =>
    intro e h
    cases r with
    | value v =>
      simp only [payloads] at h
      cases hp : payloads rest with
      | error e2 =>
        rw [hp] at h
        simp only [Except.map] at h
        simp only [Except.error.injEq] at h
        rw [← h]
        exact ih hp
      | ok vs =>
        rw [hp] at h
        simp [Except.map] at h
    | errors es =>
      simp only [payloads, Except.error.injEq] at h
      exact h.symm

theorem runInnerGo_error_ne {recur :
      Field → List PathKey → PyVal → PyVal → List (String × Res) →
        Except PyExn Res}
    {fi : Field} {ctx : PyVal} {ir : List (String × Res)}
    (hrec : ∀ q w e, recur fi q w ctx ir = .error e →
      e ≠ .valueError "Field dependencies could not be resolved.") :
    ∀ (xs : List PyVal) (idx : Nat) (e : PyExn),
      runInnerGo recur fi ctx ir xs idx = .error e →
      e ≠ .valueError "Field dependencies could not be resolved." := by
  intro xs
  induction xs with
  | nil => intro idx e h; simp [runInnerGo] at h
  | cons x rest ih =>
    intro idx e h
    simp only [runInnerGo] at h
    split at h
    · rename_i e2 heq
      simp only [Except.error.injEq] at h
      exact h ▸ hrec _ _ _ heq
    · split at h
      · rename_i e2 heq
        simp only [Except.error.injEq] at h
        exact h ▸ ih _ _ heq
      · simp at h

theorem chainGo_error_ne {recur :
      Field → List PathKey → PyVal → PyVal → List (String × Res) →
        Except PyExn Res}
    {p : List PathKey} {ctx : PyVal} {ir : List (String × Res)}
    (hrec : ∀ fi q w e, recur fi q w ctx ir = .error e →
      e ≠ .valueError "Field dependencies could not be resolved.") :
    ∀ (vs : List Validator) (cur : PyVal) (e : PyExn),
      chainGo recur p ctx ir vs cur = .error e →
      e ≠ .valueError "Field dependencies could not be resolved." := by
  intro vs
  induction vs with
  | nil => intro cur e h; simp [chainGo] at h
  | cons vd rest ih =>
    intro cur e h
    simp only [chainGo] at h
    split at h
    · rename_i e2 heq
      simp only [Except.error.injEq] at h
      subst h
      rcases applyValidator_context_error heq with h | h | h <;> simp [h]
    · exact ih _ _ h
    · simp at h
    · simp at h
    · split at h
      · simp only [Except.error.injEq] at h
        simp [← h]
      · split at h
        · rename_i e2 heq
          simp only [Except.error.injEq] at h
          exact h ▸ runInnerGo_error_ne (fun q w e3 => hrec _ q w e3) _ _ _ heq
        · split at h
          · split at h
            · rename_i e2 heq
              simp only [Except.error.injEq] at h
              subst h
              simp [payloads_error_eq heq]
            · exact ih _ _ h
          · simp at h

theorem runValidatorsFuel_error_ne :
    ∀ (n : Nat) (f : Field) (p : List PathKey) (v ctx : PyVal)
      (ir : List (String × Res)) (e : PyExn),
      runValidatorsFuel n f p v ctx ir = .error e →
      e ≠ .valueError "Field dependencies could not be resolved." := by
  intro n
  induction n with
  | zero =>
    intro f p v ctx ir e h
    simp only [runValidatorsFuel, Except.error.injEq] at h
    simp [← h]
  | succ m ih =>
    intro f p v ctx ir e h
    simp only [runValidatorsFuel] at h
    split at h
    · split at h
      · split at h <;> simp at h
      · split at h <;> simp at h
    · exact chainGo_error_ne (fun fi q w e2 hh => ih fi q w ctx ir e2 hh)
        _ _ _ h

theorem run_validators_error_ne {f : Field} {p : List PathKey}
    {v ctx : PyVal} {ir : List (String × Res)} {e : PyExn}
    (h : run_validators f p v ctx ir = .error e) :
    e ≠ .valueError "Field dependencies could not be resolved." :=
  runValidatorsFuel_error_ne _ f p v ctx ir e h

theorem cleanLoop_error_ne {data : Data} {ctx : PyVal}
    {delayed : List (String × Field)} :
    ∀ (fuel : Nat) (queue : List (String × Field))
      (results : List (String × Res)) (e : PyExn),
      cleanLoop data ctx delayed fuel queue results = .error e →
      e ≠ .valueError "Field dependencies could not be resolved." := by
  intro fuel
  induction fuel with
  | zero =>
    intro queue results e h
    cases queue with
    | nil => simp [cleanLoop] at h
    | cons q rest =>
      simp only [cleanLoop, Except.error.injEq] at h
      simp [← h]
  | succ m ih =>
    intro queue results e h
    cases queue with
    | nil => simp [cleanLoop] at h
    | cons q rest =>
      cases q with
      | mk fname fdef =>
        simp only [cleanLoop] at h
        split at h
        · split at h
          · simp only [Except.error.injEq] at h
            simp [← h]
          · split at h
            · rename_i e2 heq
              simp only [Except.error.injEq] at h
              subst h
              exact run_validators_error_ne heq
            · exact ih _ _ _ h
        · split at h
          · simp only [Except.error.injEq] at h
            simp [← h]
          · split at h
            · rename_i e2 heq
              simp only [Except.error.injEq] at h
              subst h
              exact run_validators_error_ne heq
            · exact ih _ _ _ h

theorem finishClean_error_eq {fieldNames : List String}
    {results : List (String × Res)} {e : PyExn}
    (h : finishClean fieldNames results = .error e) :
    e = .assertionError := by
  simp only [finishClean] at h
  split at h
  · split at h
    · simp at h
    · simp only [Except.error.injEq] at h
      exact h.symm
  · simp at h

/-- C7: a dependency cycle among declared fields makes the
construction-time check `_check_for_dependency_loops` raise its fatal
`ValueError`; conversely an acyclic dependency graph (whose declared
dependencies all name declared fields or the synthetic `"self"`) passes
the check; and no `clean` call ever raises that cycle-detection error. -/
theorem c7_cycle_detection (fields : List (String × Field))
    (hnd : (keys fields).Nodup) (hself : "self" ∉ keys fields) :
    (Cyclic fields → check_for_dependency_loops fields =
      .error (.valueError "Field dependencies could not be resolved.")) ∧
    ((∀ nf ∈ fields, ∀ d ∈ nf.2.depends_on,
        d ∈ keys fields ∨ d = "self") → ¬Cyclic fields →
      check_for_dependency_loops fields = .ok ()) ∧
    (∀ (sd : SchemaDefinition) (data : Data) (ctx : PyVal),
      clean sd data ctx ≠
        .error (.valueError "Field dependencies could not be resolved.")) := by
  have hkeys : keys (fields.map (fun nf => (nf.1, nf.2.depends_on))) =
      keys fields := by
    simp [keys, List.map_map]
  refine ⟨?_, ?_, ?_⟩
  · intro hcyc
    obtain ⟨S, hne, hS⟩ := hcyc
    apply checkLoopsAux_cyclic _ _ _ S le_rfl (by rw [hkeys]; exact hnd) hne
    · intro n hn
      obtain ⟨f, hf, _⟩ := hS n hn
      have hk := mem_keys_of_lookup_some hf
      simp only [List.mem_singleton]
      intro he
      exact hself (he ▸ hk)
    · intro n hn
      obtain ⟨f, hf, d, hd, hdS⟩ := hS n hn
      refine ⟨f.depends_on, ?_, d, hd, hdS⟩
      exact List.mem_map_of_mem _ (mem_of_lookup_some hf)
  · intro hwf hnc
    apply checkLoopsAux_acyclic _ _ _ le_rfl (by rw [hkeys]; exact hnd)
    · intro nd hnd2
      simp only [List.mem_map] at hnd2
      obtain ⟨nf, hnf, hfe⟩ := hnd2
      simp only [List.mem_singleton]
      intro he
      apply hself
      rw [← he, ← hfe]
      exact List.mem_map_of_mem _ hnf
    · intro nd hnd2 d hd
      simp only [List.mem_map] at hnd2
      obtain ⟨nf, hnf, hfe⟩ := hnd2
      rw [← hfe] at hd
      simp only at hd
      rcases hwf nf hnf d hd with h | h
      · exact Or.inr (by rw [hkeys]; exact h)
      · exact Or.inl (by simp [h])
    · intro hS
      apply hnc
      obtain ⟨S, hne, hSp⟩ := hS
      refine ⟨S, hne, fun n hn => ?_⟩
      obtain ⟨dl, hdl, hd⟩ := hSp n hn
      simp only [List.mem_map] at hdl
      obtain ⟨nf, hnf, hfe⟩ := hdl
      have h1 : nf.1 = n := congrArg Prod.fst hfe
      have h2 : nf.2.depends_on = dl := congrArg Prod.snd hfe
      refine ⟨nf.2, ?_, by rw [h2]; exact hd⟩
      rw [← h1]
      apply lookup_unique_of_nodup hnd
      simpa using hnf
  · intro sd data ctx hc
    simp only [clean] at hc
    split at hc
    · rename_i e heq
      simp only [Except.error.injEq] at hc
      exact cleanLoop_error_ne _ _ _ _ heq (by rw [hc])
    · exact absurd (finishClean_error_eq hc) (by simp)

/-- C7 witness: the two-field cycle is rejected at construction, the
acyclic `a`/`b` schema passes. -/
theorem c7_cycle_detection_witness :
    check_for_dependency_loops cycFields =
      .error (.valueError "Field dependencies could not be resolved.") ∧
    check_for_dependency_loops sd2.fields = .ok () := by
  constructor
  · apply (c7_cycle_detection cycFields (by decide) (by decide)).1
    refine ⟨["d1", "d2"], by simp, ?_⟩
    intro n hn
    simp only [List.mem_cons, List.mem_singleton] at hn
    rcases hn with rfl | rfl | h
    · exact ⟨_, rfl, "d2", by simp [cycFields], by simp⟩
    · exact ⟨_, rfl, "d1", by simp [cycFields], by simp⟩
    · simp at h
  · apply (c7_cycle_detection sd2.fields (by decide) (by decide)).2.1
    · intro nf hnf d hd
      simp only [sd2, List.mem_cons] at hnf
      rcases hnf with rfl | hnf
      · simp [strF] at hd
      · rcases hnf with rfl | h
        · simp only [depF, Field.depends_on_mk, List.mem_singleton] at hd
          subst hd
          simp [sd2, keys]
        · simp at h
    · intro hcyc
      obtain ⟨S, hne, hS⟩ := hcyc
      have ha : "a" ∉ S := by
        intro haa
        obtain ⟨f, hf, d, hd, _⟩ := hS "a" haa
        simp [sd2, lookup] at hf
        subst hf
        simp [strF] at hd
      have hb : "b" ∉ S := by
        intro hbb
        obtain ⟨f, hf, d, hd, hdS⟩ := hS "b" hbb
        simp [sd2, lookup] at hf
        subst hf
        simp [depF] at hd
        subst hd
        exact ha hdS
      obtain ⟨n0, hn0⟩ : ∃ n0, n0 ∈ S := by
        cases S with
        | nil => exact absurd rfl hne
        | cons a t => exact ⟨a, List.mem_cons_self _ _⟩
      obtain ⟨f, hf, _⟩ := hS n0 hn0
      have hk := mem_keys_of_lookup_some hf
      simp [sd2, keys] at hk
      rcases hk with rfl | rfl
      · exact ha hn0
      · exact hb hn0

theorem keys_setKey_nodup {α : Type} {l : List (String × α)} {k : String}
    {v : α} (h : (keys l).Nodup) : (keys (setKey l k v)).Nodup := by
  by_cases hk : k ∈ keys l
  · have hkeys : keys (setKey l k v) = keys l := by
      simp only [setKey, if_pos hk]
      simp only [keys, List.map_map]
      apply List.map_congr_left
      intro p _
      by_cases hp : p.1 = k
      · simp [Function.comp, hp]
      · simp [Function.comp, hp]
    rw [hkeys]
    exact h
  · rw [setKey_of_not_mem v hk]
    rw [keys_append]
    simp only [keys_cons, keys_nil]
    rw [List.nodup_append]
    exact ⟨h, List.nodup_singleton _, by
      intro a ha
      simp only [List.mem_singleton]
      intro he
      exact hk (he ▸ ha)⟩

theorem cleanLoop_keys_nodup {data : Data} {ctx : PyVal}
    {delayed : List (String × Field)} :
    ∀ (fuel : Nat) (queue : List (String × Field))
      (results res : List (String × Res)),
      (keys results).Nodup →
      cleanLoop data ctx delayed fuel queue results = .ok res →
      (keys res).Nodup := by
  intro fuel
  induction fuel with
  | zero =>
    intro queue results res hnd h
    cases queue with
    | nil =>
      simp only [cleanLoop, Except.ok.injEq] at h
      exact h ▸ hnd
    | cons q rest => simp [cleanLoop] at h
  | succ m ih =>
    intro queue results res hnd h
    cases queue with
    | nil =>
      simp only [cleanLoop, Except.ok.injEq] at h
      exact h ▸ hnd
    | cons q rest =>
      cases q with
      | mk fname fdef =>
        simp only [cleanLoop] at h
        split at h
        · split at h
          · simp at h
          · split at h
            · simp at h
            · exact ih _ _ _ (keys_setKey_nodup hnd) h
        · split at h
          · simp at h
          · split at h
            · simp at h
            · exact ih _ _ _ (keys_setKey_nodup hnd) h

theorem keys_record_sublist (results : List (String × Res)) :
    List.Sublist (keys (results.filterMap (fun p =>
      match p.2 with
      | .value v => if p.1 = "self" then Option.none else some (p.1, v)
      | .errors _ => Option.none))) (keys results) := by
  induction results with
  | nil => simp
  | cons p rest ih =>
    cases hp2 : p.2 with
    | value v =>
      simp only [List.filterMap_cons, hp2]
      by_cases hself : p.1 = "self"
      · rw [if_pos hself]
        exact ih.cons _
      · rw [if_neg hself]
        simp only [keys_cons]
        exact ih.cons₂ _
    | errors es =>
      simp only [List.filterMap_cons, hp2]
      exact ih.cons _

theorem serializeRaw_eq {data : List (String × PyVal)} :
    ∀ (fields : List (String × Field)) (acc : List (String × PyVal)),
      (∀ nf ∈ fields, nf.1 ∈ keys data) →
      (∀ nf ∈ fields, serTarget nf.2 nf.1 ∉ keys acc) →
      (fields.map (fun nf => serTarget nf.2 nf.1)).Nodup →
      serializeRaw data fields acc =
        .ok (acc ++ fields.map (fun nf =>
          (serTarget nf.2 nf.1,
            nf.2.serialize_func ((lookup data nf.1).getD PyVal.none)))) := by
  intro fields
  induction fields with
  | nil => intro acc _ _ _; simp [serializeRaw]
  | cons nf rest ih =>
    intro acc hpres hfresh hnd
    cases nf with
    | mk n f =>
      have hn : n ∈ keys data := hpres (n, f) (List.mem_cons_self _ _)
      cases hl : lookup data n with
      | none =>
        exact absurd (lookup_isSome_of_mem_keys hn) (by simp [hl])
      | some v =>
        simp only [serializeRaw, hl]
        have htfresh : serTarget f n ∉ keys acc :=
          hfresh (n, f) (List.mem_cons_self _ _)
        rw [setKey_of_not_mem _ htfresh]
        simp only [List.map_cons, List.nodup_cons] at hnd
        rw [ih (acc ++ [(serTarget f n, f.serialize_func v)])
          (fun mf hm => hpres mf (List.mem_cons_of_mem _ hm))
          (fun mf hm => by
            rw [keys_append]
            simp only [List.mem_append, keys_cons, keys_nil,
              List.mem_singleton]
            push_neg
            refine ⟨fun hc => hfresh mf (List.mem_cons_of_mem _ hm) hc, ?_⟩
            intro he
            exact hnd.1 (he ▸ List.mem_map_of_mem _ hm))
          hnd.2]
        simp [hl, List.append_assoc]

theorem lookup_filter_ne_omitted :
    ∀ {l : List (String × PyVal)} {k : String}, (keys l).Nodup →
      lookup (l.filter (fun p => p.2 != PyVal.omitted)) k =
        match lookup l k with
        | some v =>
          if v = PyVal.omitted then Option.none else some v
        | Option.none => Option.none := by
  intro l
  induction l with
  | nil => intro k _; simp [lookup]
  | cons p rest ih =>
    intro k hnd
    cases p with
    | mk a v =>
      simp only [keys_cons, List.nodup_cons] at hnd
      by_cases hak : a = k
      · subst hak
        by_cases hv : v = PyVal.omitted
        · subst hv
          simp only [List.filter_cons]
          rw [if_neg (by simp)]
          rw [ih hnd.2]
          rw [lookup_eq_none_of_not_mem hnd.1]
          simp [lookup]
        · simp only [List.filter_cons]
          rw [if_pos (by simpa using hv)]
          simp [lookup, hv]
      · by_cases hv : v = PyVal.omitted
        · subst hv
          simp only [List.filter_cons]
          rw [if_neg (by simp)]
          rw [ih hnd.2]
          simp [lookup, hak]
        · simp only [List.filter_cons]
          rw [if_pos (by simpa using hv)]
          simp only [lookup, if_neg hak]
          exact ih hnd.2

/-- C6: for every input on which `clean` yields a validated record (with
pairwise-distinct serialization targets, as a mapping requires), applying
`serialize` succeeds and stores, for each declared field, the field's
validated value transformed by its `serialize_func` under its
`serialize_to` name (the field's own name when unset), except that every
entry whose final serialized value is the `omitted` sentinel is dropped
from the output. -/
theorem c6_serialize_roundtrip (sd : SchemaDefinition) (data : Data)
    (ctx : PyVal) (rec : List (String × PyVal))
    (hclean : clean sd data ctx = .ok (.inr rec))
    (hts : (sd.fields.map (fun nf => serTarget nf.2 nf.1)).Nodup) :
    ∃ out, serialize sd rec = .ok out ∧
      (∀ nf ∈ sd.fields, ∃ v, lookup rec nf.1 = some v ∧
        lookup out (serTarget nf.2 nf.1) =
          (if nf.2.serialize_func v = PyVal.omitted then Option.none
           else some (nf.2.serialize_func v))) ∧
      (∀ p ∈ out, p.2 ≠ PyVal.omitted) := by
  have hrecnd : (keys rec).Nodup := by
    simp only [clean] at hclean
    split at hclean
    · exact absurd hclean (by simp)
    · rename_i results heq
      have hfin := finishClean_ok_inr hclean
      have hres := cleanLoop_keys_nodup _ _ _ _ (by simp [keys]) heq
      rw [hfin.2.2.1]
      exact (keys_record_sublist results).nodup hres
  have hmem : ∀ nf ∈ sd.fields, nf.1 ∈ keys rec := by
    intro nf hnf
    have h10 := c10_record_keys sd data ctx rec hclean
    exact (h10.1 nf.1).mpr (List.mem_map_of_mem _ hnf)
  have hser := serializeRaw_eq sd.fields [] hmem (by simp) hts
  simp only [List.nil_append] at hser
  refine ⟨_, by rw [serialize, hser]; rfl, ?_, ?_⟩
  · intro nf hnf
    cases hl : lookup rec nf.1 with
    | none =>
      exact absurd (lookup_isSome_of_mem_keys (hmem nf hnf)) (by simp [hl])
    | some v =>
      refine ⟨v, rfl, ?_⟩
      have hknd : (keys (sd.fields.map (fun mf =>
          (serTarget mf.2 mf.1,
            mf.2.serialize_func
              ((lookup rec mf.1).getD PyVal.none))))).Nodup := by
        simpa [keys, List.map_map, Function.comp] using hts
      rw [lookup_filter_ne_omitted hknd]
      have hentry : (serTarget nf.2 nf.1,
          nf.2.serialize_func ((lookup rec nf.1).getD PyVal.none)) ∈
          sd.fields.map (fun mf =>
            (serTarget mf.2 mf.1,
              mf.2.serialize_func ((lookup rec mf.1).getD PyVal.none))) :=
        List.mem_map_of_mem _ hnf
      rw [lookup_unique_of_nodup hknd hentry]
      simp [hl]
  · intro p hp
    have := List.mem_filter.mp hp
    simpa using this.2

/-- C6 witness: a schema with a renamed field and a serializer that
produces the `omitted` sentinel round-trips as claimed. -/
theorem c6_serialize_roundtrip_witness :
    ∃ out, serialize sd6 [("b", PyVal.str "y"), ("a", PyVal.str "x")] =
        .ok out ∧
      (∀ nf ∈ sd6.fields, ∃ v,
        lookup [("b", PyVal.str "y"), ("a", PyVal.str "x")] nf.1 = some v ∧
        lookup out (serTarget nf.2 nf.1) =
          (if nf.2.serialize_func v = PyVal.omitted then Option.none
           else some (nf.2.serialize_func v))) ∧
      (∀ p ∈ out, p.2 ≠ PyVal.omitted) :=
  c6_serialize_roundtrip sd6 (.dict [("a", .str "x"), ("b", .str "y")])
    PyVal.empty [("b", .str "y"), ("a", .str "x")] (by decide) (by decide)

theorem depKwargs_nil {params : List String} :
    ∀ {ir : List (String × Res)}, (∀ n ∈ keys ir, n ∉ params) →
      depKwargs params ir = .ok [] := by
  intro ir
  induction ir with
  | nil => intro _; rfl
  | cons p rest ih =>
    intro h
    cases p with
    | mk n r =>
      simp only [depKwargs]
      rw [if_neg (h n (by simp [keys]))]
      exact ih (fun m hm => h m (by simp [keys] at hm ⊢; exact Or.inr hm))

theorem payloads_ok_spec :
    ∀ {rs : List Res} {vals : List PyVal}, payloads rs = .ok vals →
      vals.length = rs.length ∧
      ∀ i (h2 : i < rs.length) (h3 : i < vals.length),
        rs.get ⟨i, h2⟩ = .value (vals.get ⟨i, h3⟩) := by
  intro rs
  induction rs with
  | nil =>
    intro vals h
    simp only [payloads, Except.ok.injEq] at h
    subst h
    exact ⟨rfl, fun i h2 => by simp at h2⟩
  | cons r rest ih =>
    intro vals h
    cases r with
    | value v =>
      simp only [payloads] at h
      cases hp : payloads rest with
      | error e => rw [hp] at h; simp [Except.map] at h
      | ok vs =>
        rw [hp] at h
        simp only [Except.map, Except.ok.injEq] at h
        subst h
        obtain ⟨hl, hspec⟩ := ih hp
        refine ⟨by simp [hl], ?_⟩
        intro i h2 h3
        cases i with
        | zero => rfl
        | succ j =>
          simp only [List.get_cons_succ]
          exact hspec j (by simpa using h2) (by simpa using h3)
    | errors es => simp [payloads] at h

theorem flattenInner_mem :
    ∀ (rs : List Res) (e : Error),
      e ∈ flattenInner rs ↔
        ∃ i, ∃ h2 : i < rs.length, ∃ es,
          rs.get ⟨i, h2⟩ = .errors es ∧ e ∈ es.flatten := by
  intro rs
  induction rs with
  | nil =>
    intro e
    simp [flattenInner]
  | cons r rest ih =>
    intro e
    cases r with
    | value v =>
      simp only [flattenInner]
      rw [ih e]
      constructor
      · rintro ⟨i, h2, es, hes, he⟩
        exact ⟨i + 1, by simpa using h2, es, by simpa using hes, he⟩
      · rintro ⟨i, h2, es, hes, he⟩
        cases i with
        | zero => simp at hes
        | succ j =>
          exact ⟨j, by simpa using h2, es, by simpa using hes, he⟩
    | errors es0 =>
      simp only [flattenInner, List.mem_append]
      rw [ih e]
      constructor
      · rintro (he | ⟨i, h2, es, hes, he⟩)
        · exact ⟨0, by simp, es0, rfl, he⟩
        · exact ⟨i + 1, by simpa using h2, es, by simpa using hes, he⟩
      · rintro ⟨i, h2, es, hes, he⟩
        cases i with
        | zero =>
          have hes2 : Res.errors es0 = Res.errors es := hes
          injection hes2 with hes3
          exact Or.inl (hes3 ▸ he)
        | succ j =>
          exact Or.inr ⟨j, by simpa using h2, es, by simpa using hes, he⟩

theorem runInnerGo_runs (fi : Field) (ctx : PyVal)
    (ir : List (String × Res)) :
    ∀ (xs : List PyVal) (rs : List Res) (idx : Nat),
      rs.length = xs.length →
      (∀ i (h : i < xs.length) (h2 : i < rs.length),
        run_validators fi [.i (idx + i)] (xs.get ⟨i, h⟩) ctx ir =
          .ok (rs.get ⟨i, h2⟩)) →
      runInnerGo run_validators fi ctx ir xs idx = .ok rs := by
  intro xs
  induction xs with
  | nil =>
    intro rs idx hlen _
    have : rs = [] := List.length_eq_zero.mp (by simpa using hlen)
    subst this
    rfl
  | cons x rest ih =>
    intro rs idx hlen hin
    cases rs with
    | nil => simp at hlen
    | cons r rs2 =>
      simp only [runInnerGo]
      have h0 : run_validators fi [.i idx] x ctx ir = .ok r :=
        hin 0 (by simp) (by simp)
      rw [h0]
      rw [ih rs2 (idx + 1) (by simpa using hlen) ?_]
      intro i h h2
      have hs := hin (i + 1) (by simpa using h) (by simpa using h2)
      have he : idx + (i + 1) = idx + 1 + i := by omega
      rw [he] at hs
      exact hs

/-- C5: a list field over an inner field; when some elements fail, the
result is exactly one `Errors` batch scoped to the list field whose
flattened entry paths are `(listFieldName, index)` exactly for the invalid
indices (all invalid elements reported), and when every element validates
the result is the ordered list of the validated element values. -/
theorem c5_list_field (inner : Field) (name : String) (ctx : PyVal)
    (ir : List (String × Res)) (xs : List PyVal) (rs : List Res)
    (hval : "value" ∉ keys ir)
    (hlen : rs.length = xs.length)
    (hin : ∀ i (h : i < xs.length) (h2 : i < rs.length),
      run_validators inner [.i i] (xs.get ⟨i, h⟩) ctx ir =
        .ok (rs.get ⟨i, h2⟩)) :
    (flattenInner rs ≠ [] →
      run_validators (listFieldDef inner) [.s name] (.list xs) ctx ir =
        .ok (.errors ⟨flattenInner rs, [.s name]⟩)) ∧
    ((∀ i (h2 : i < rs.length) es, rs.get ⟨i, h2⟩ = .errors es →
        ∀ e ∈ es.errors, e.field = []) →
      ∀ p, p ∈ (Errors.mk (flattenInner rs) [.s name]).flatten.map
          Error.field ↔
        ∃ i, ∃ h2 : i < rs.length, p = [.s name, .i i] ∧
          ∃ es, rs.get ⟨i, h2⟩ = .errors es ∧ es.errors ≠ []) ∧
    (flattenInner rs = [] → ∀ vals, payloads rs = .ok vals →
      run_validators (listFieldDef inner) [.s name] (.list xs) ctx ir =
        .ok (.value (.list vals)) ∧ vals.length = rs.length ∧
      ∀ i (h2 : i < rs.length) (h3 : i < vals.length),
        rs.get ⟨i, h2⟩ = .value (vals.get ⟨i, h3⟩)) := by
  have hcong : ∀ q w, runValidatorsFuel (Field.size (listFieldDef inner))
      inner q w ctx ir = run_validators inner q w ctx ir := by
    intro q w
    have hsz : Field.size (listFieldDef inner) = Field.size inner + 4 := by
      simp only [listFieldDef, Field.size, Field.sizeVs, Validator.size,
        listfieldV]
      omega
    rw [hsz]
    have h4 : Field.size inner + 4 = (Field.size inner + 3) + 1 := rfl
    rw [h4]
    exact runValidatorsFuel_mono _ inner (by omega) q w ctx ir
  have hinner : runInnerGo
      (runValidatorsFuel (Field.size (listFieldDef inner)))
      inner ctx ir xs 0 = .ok rs := by
    rw [runInnerGo_congr (fun q w => hcong q w) xs 0]
    exact runInnerGo_runs inner ctx ir xs rs 0 hlen
      (fun i h h2 => by simpa using hin i h h2)
  have happ : applyValidator (listfieldV inner) (.list xs) ctx ir =
      .ok (.wrapped xs) := by
    have hdk : depKwargs ["value"] ir = .ok [] := by
      apply depKwargs_nil
      intro n hn
      simp only [List.mem_singleton]
      intro he
      exact hval (he ▸ hn)
    simp [applyValidator, listfieldV, hdk, sentinelKwargs, listfieldFn,
      lookup, keys]
  have hmain : run_validators (listFieldDef inner) [.s name] (.list xs)
      ctx ir =
      (if (flattenInner rs).isEmpty then
        match payloads rs with
        | .error e => .error e
        | .ok vals =>
          .ok (.value (finalWrap (PyVal.list vals)))
      else .ok (.errors ⟨flattenInner rs, [.s name]⟩)) := by
    rw [run_validators]
    simp only [runValidatorsFuel]
    rw [if_neg (by simp)]
    have hv : (listFieldDef inner).validators = [listfieldV inner] := rfl
    rw [hv]
    have hi : (listfieldV inner).inner = some inner := rfl
    have hc : (listfieldV inner).construct = PyVal.list := rfl
    simp only [chainGo, happ, hi, hc]
    rw [hinner]
  refine ⟨?_, ?_, ?_⟩
  · intro hne
    rw [hmain]
    rw [if_neg (by simpa using hne)]
  · intro hsimple p
    have hflat : (Errors.mk (flattenInner rs) [.s name]).flatten.map
        Error.field = (flattenInner rs).map
          (fun e => [PathKey.s name] ++ e.field) := by
      simp [Errors.flatten, wrapError, List.map_map, Function.comp]
    rw [hflat]
    rw [List.mem_map]
    constructor
    · rintro ⟨e, he, hp⟩
      obtain ⟨i, h2, es, hes, hee⟩ := (flattenInner_mem rs e).mp he
      have hfield : es.field = [.i i] := by
        have hi : i < xs.length := hlen ▸ h2
        have := hin i hi h2
        rw [hes] at this
        exact run_validators_ok_errors_field this
      simp only [Errors.flatten, List.mem_map] at hee
      obtain ⟨e0, he0, hee0⟩ := hee
      have he0f : e0.field = [] := hsimple i h2 es hes e0 he0
      refine ⟨i, h2, ?_, es, hes, by
        intro hnil
        rw [hnil] at he0
        simp at he0⟩
      rw [← hp, ← hee0]
      simp [wrapError, hfield, he0f]
    · rintro ⟨i, h2, hp, es, hes, hne⟩
      have hfield : es.field = [.i i] := by
        have hi : i < xs.length := hlen ▸ h2
        have := hin i hi h2
        rw [hes] at this
        exact run_validators_ok_errors_field this
      obtain ⟨e0, he0⟩ := List.exists_mem_of_ne_nil es.errors hne
      refine ⟨wrapError es.field e0, ?_, ?_⟩
      · rw [flattenInner_mem]
        exact ⟨i, h2, es, hes, List.mem_map_of_mem _ he0⟩
      · have he0f : e0.field = [] := hsimple i h2 es hes e0 he0
        simp [wrapError, hfield, he0f, hp]
  · intro hemp vals hpay
    obtain ⟨hvl, hvspec⟩ := payloads_ok_spec hpay
    refine ⟨?_, hvl, hvspec⟩
    rw [hmain]
    rw [if_pos (by simpa using hemp), hpay]
    rfl

/-- C5 witness: a list of booleans with one invalid element yields the
single batch with path `(tags, 1)`; an all-valid list reconstructs in
order. -/
theorem c5_list_field_witness :
    run_validators (listFieldDef boolF) [.s "tags"]
        (.list [.bool true, .int 7]) PyVal.empty [] =
      .ok (.errors ⟨[⟨"Value is not a boolean.", [.i 1]⟩], [.s "tags"]⟩) ∧
    run_validators (listFieldDef boolF) [.s "tags"]
        (.list [.bool true, .bool false]) PyVal.empty [] =
      .ok (.value (.list [.bool true, .bool false])) := by
  constructor
  · have h := (c5_list_field boolF "tags" PyVal.empty []
      [.bool true, .int 7]
      [.value (.bool true),
       .errors ⟨[⟨"Value is not a boolean.", []⟩], [.i 1]⟩]
      (by decide) (by decide)
      (by
        intro i h h2
        match i, h, h2 with
        | 0, _, _ => rfl
        | 1, _, _ => rfl)).1 (by decide)
    rw [h]
    rfl
  · have h := (c5_list_field boolF "tags" PyVal.empty []
      [.bool true, .bool false]
      [.value (.bool true), .value (.bool false)]
      (by decide) (by decide)
      (by
        intro i h h2
        match i, h, h2 with
        | 0, _, _ => rfl
        | 1, _, _ => rfl)).2.2 (by decide)
      [.bool true, .bool false] (by decide)
    exact h.1

theorem isValueAt_some {results : List (String × Res)} {d : String}
    (h : isValueAt results d = true) :
    ∃ v, lookup results d = some (.value v) := by
  simp only [isValueAt] at h
  cases hl : lookup results d with
  | none => rw [hl] at h; simp at h
  | some r =>
    cases r with
    | value v => exact ⟨v, rfl⟩
    | errors es => rw [hl] at h; simp at h

theorem isValueAt_append {results ext : List (String × Res)} {d : String}
    (h : isValueAt results d = true) :
    isValueAt (results ++ ext) d = true := by
  obtain ⟨v, hv⟩ := isValueAt_some h
  simp only [isValueAt]
  rw [lookup_append_some hv]

theorem collectErrors_mem :
    ∀ {results : List (String × Res)} {e : Error},
      e ∈ collectErrors results ↔
        ∃ k es, (k, Res.errors es) ∈ results ∧ e ∈ es.flatten := by
  intro results
  induction results with
  | nil => intro e; simp [collectErrors]
  | cons p rest ih =>
    intro e
    cases p with
    | mk k r =>
      cases r with
      | value v =>
        simp only [collectErrors]
        rw [ih]
        constructor
        · rintro ⟨k2, es, hmem, he⟩
          exact ⟨k2, es, List.mem_cons_of_mem _ hmem, he⟩
        · rintro ⟨k2, es, hmem, he⟩
          rcases List.mem_cons.mp hmem with heq | hmem2
          · exact absurd (congrArg Prod.snd heq) (by simp)
          · exact ⟨k2, es, hmem2, he⟩
      | errors es0 =>
        simp only [collectErrors, List.mem_append]
        rw [ih]
        constructor
        · rintro (he | ⟨k2, es, hmem, he⟩)
          · exact ⟨k, es0, List.mem_cons_self _ _, he⟩
          · exact ⟨k2, es, List.mem_cons_of_mem _ hmem, he⟩
        · rintro ⟨k2, es, hmem, he⟩
          rcases List.mem_cons.mp hmem with heq | hmem2
          · have h1 : k2 = k := congrArg Prod.fst heq
            have h2 : Res.errors es = Res.errors es0 := congrArg Prod.snd heq
            injection h2 with h2
            exact Or.inl (h2 ▸ he)
          · exact Or.inr ⟨k2, es, hmem2, he⟩

theorem finishClean_inl {ns : List String} {results : List (String × Res)}
    {ve : ValidationError} (h : finishClean ns results = .ok (.inl ve)) :
    ve.errors = collectErrors results ∧ collectErrors results ≠ [] := by
  simp only [finishClean] at h
  by_cases herr : (collectErrors results).isEmpty
  · rw [if_pos herr] at h
    split at h
    · simp at h
    · simp at h
  · rw [if_neg herr] at h
    simp only [Except.ok.injEq, Sum.inl.injEq] at h
    exact ⟨by rw [← h], by simpa using herr⟩

theorem Tainted.mem_keys {fields : List (String × Field)}
    {failed : String → Bool} {n : String}
    (h : Tainted fields failed n) : n ∈ keys fields := by
  cases h with
  | base hmem _ _ => exact List.mem_map_of_mem _ hmem
  | step hmem _ _ => exact List.mem_map_of_mem _ hmem

theorem cleanLoopT_fst {data : Data} {ctx : PyVal}
    {delayed : List (String × Field)} :
    ∀ (fuel : Nat) (queue : List (String × Field))
      (results : List (String × Res)) (tr : Trace),
      cleanLoop data ctx delayed fuel queue results =
        (cleanLoopT data ctx delayed fuel queue results tr).map
          (fun p => p.1) := by
  intro fuel
  induction fuel with
  | zero =>
    intro queue results tr
    cases queue with
    | nil => rfl
    | cons q rest => rfl
  | succ m ih =>
    intro queue results tr
    cases queue with
    | nil => rfl
    | cons q rest =>
      cases q with
      | mk fname fdef =>
        simp only [cleanLoop, cleanLoopT]
        by_cases hv : resolveValue data
            (if fdef.accepts.isEmpty then [fname] else fdef.accepts) =
            PyVal.empty
        · rw [if_pos hv, if_pos hv]
          rfl
        · rw [if_neg hv, if_neg hv]
          cases hrv : run_validators fdef [.s fname]
              (resolveValue data
                (if fdef.accepts.isEmpty then [fname] else fdef.accepts))
              ctx results with
          | error e => simp only [Except.map]
          | ok r =>
            simp only
            exact ih _ _ _

theorem scontains_eq {l : List String} {a : String} :
    l.contains a = true ↔ a ∈ l := by simp

theorem cleanLoopT_step_ok {data : Data} {ctx : PyVal}
    {delayed rest : List (String × Field)} {fname : String} {fdef : Field}
    {results : List (String × Res)} {tr : Trace} {m : Nat} {r : Res}
    (hv : resolveValue data
      (if fdef.accepts.isEmpty then [fname] else fdef.accepts) ≠
        PyVal.empty)
    (hrv : run_validators fdef [.s fname]
      (resolveValue data
        (if fdef.accepts.isEmpty then [fname] else fdef.accepts))
      ctx results = .ok r) :
    cleanLoopT data ctx delayed (m + 1) ((fname, fdef) :: rest) results tr =
      cleanLoopT data ctx delayed m
        ((promote delayed (setKey results fname r) (keys rest)).reverse ++
          rest)
        (setKey results fname r) (tr ++ [(fname, results)]) := by
  simp only [cleanLoopT]
  rw [if_neg hv, hrv]

theorem cleanLoopT_inv {data : Data} {ctx : PyVal}
    {fields delayed : List (String × Field)}
    (hfnd : (keys fields).Nodup) (hdelnd : (keys delayed).Nodup) :
    ∀ (fuel : Nat) (queue : List (String × Field))
      (results resf : List (String × Res)) (tr trf : Trace),
      cleanLoopT data ctx delayed fuel queue results tr = .ok (resf, trf) →
      LoopInv fields delayed queue results tr →
      LoopInv fields delayed [] resf trf := by
  intro fuel
  induction fuel with
  | zero =>
    intro queue results resf tr trf h hinv
    cases queue with
    | nil =>
      simp only [cleanLoopT, Except.ok.injEq, Prod.mk.injEq] at h
      obtain ⟨h1, h2⟩ := h
      subst h1
      subst h2
      exact hinv
    | cons q rest => simp [cleanLoopT] at h
  | succ m ih =>
    intro queue results resf tr trf h hinv
    cases queue with
    | nil =>
      simp only [cleanLoopT, Except.ok.injEq, Prod.mk.injEq] at h
      obtain ⟨h1, h2⟩ := h
      subst h1
      subst h2
      exact hinv
    | cons q rest =>
      obtain ⟨fname, fdef⟩ := q
      by_cases hv : resolveValue data
          (if fdef.accepts.isEmpty then [fname] else fdef.accepts) =
          PyVal.empty
      · simp only [cleanLoopT] at h
        rw [if_pos hv] at h
        exact absurd h (by simp)
      · cases hrv : run_validators fdef [.s fname]
            (resolveValue data
              (if fdef.accepts.isEmpty then [fname] else fdef.accepts))
            ctx results with
        | error e =>
          simp only [cleanLoopT] at h
          rw [if_neg hv, hrv] at h
          exact absurd h (by simp)
        | ok r =>
          rw [cleanLoopT_step_ok hv hrv] at h
          have hfreshf : fname ∉ keys results :=
            hinv.queueFresh fname (by simp [keys])
          have happ : setKey results fname r = results ++ [(fname, r)] :=
            setKey_of_not_mem r hfreshf
          have hkeysR2 : keys (setKey results fname r) =
              keys results ++ [fname] := by
            rw [happ, keys_append]
            rfl
          have hold : ∀ k v, lookup results k = some v →
              lookup (setKey results fname r) k = some v := by
            intro k v hkv
            rw [happ]
            exact lookup_append_some hkv
          have hnew : lookup (setKey results fname r) fname = some r := by
            rw [happ, lookup_append_of_not_mem hfreshf]
            simp [lookup]
          have hvalPres : ∀ d, isValueAt results d = true →
              isValueAt (setKey results fname r) d = true := by
            intro d hd
            rw [happ]
            exact isValueAt_append hd
          have hlookInv : ∀ k v, lookup (setKey results fname r) k = some v →
              lookup results k = some v ∨ (k = fname ∧ v = r) := by
            intro k v hkv
            rw [happ] at hkv
            by_cases hk : k ∈ keys results
            · obtain ⟨w, hw⟩ := Option.isSome_iff_exists.mp
                (lookup_isSome_of_mem_keys hk)
            
              rw [lookup_append_some hw] at hkv
              exact Or.inl (by rw [hw, ← Option.some.inj hkv])
            · rw [lookup_append_of_not_mem hk] at hkv
              simp only [lookup] at hkv
              by_cases he : fname = k
              · rw [if_pos he] at hkv
                exact Or.inr ⟨he.symm, (Option.some.inj hkv).symm⟩
              · rw [if_neg he] at hkv
                simp [lookup] at hkv
          have hpromMem : ∀ nf ∈ promote delayed (setKey results fname r)
              (keys rest), nf ∈ delayed := by
            intro nf hnf
            exact List.mem_of_mem_filter hnf
          have hpromCond : ∀ nf ∈ promote delayed (setKey results fname r)
              (keys rest),
              nf.1 ∉ keys (setKey results fname r) ∧ nf.1 ∉ keys rest ∧
              ∀ d ∈ nf.2.depends_on,
                isValueAt (setKey results fname r) d = true := by
            intro nf hnf
            have hc := (List.mem_filter.mp hnf).2
            simp only [Bool.and_eq_true, Bool.not_eq_true'] at hc
            obtain ⟨⟨h1, h2⟩, h3⟩ := hc
            refine ⟨?_, ?_, ?_⟩
            · intro hmem
              rw [← scontains_eq] at hmem
              rw [hmem] at h1
              simp at h1
            · intro hmem
              rw [← scontains_eq] at hmem
              rw [hmem] at h2
              simp at h2
            · intro d hd
              exact List.all_eq_true.mp h3 d hd
          have hqkeys : keys ((promote delayed (setKey results fname r)
              (keys rest)).reverse ++ rest) =
              (keys (promote delayed (setKey results fname r)
                (keys rest))).reverse ++ keys rest := by
            rw [keys_append]
            simp [keys, List.map_reverse]
          have hqmem : ∀ n, n ∈ keys ((promote delayed
              (setKey results fname r) (keys rest)).reverse ++ rest) ↔
              (n ∈ keys (promote delayed (setKey results fname r)
                (keys rest)) ∨ n ∈ keys rest) := by
            intro n
            rw [hqkeys]
            simp
          have hrestFresh : ∀ n ∈ keys rest, n ∉ keys results ∧ n ≠ fname := by
            intro n hn
            have hmemq : n ∈ keys ((fname, fdef) :: rest) := by
              simp only [keys_cons]
              exact List.mem_cons_of_mem _ hn
            refine ⟨hinv.queueFresh n hmemq, ?_⟩
            have hq := hinv.nodupQueue
            simp only [keys_cons, List.nodup_cons] at hq
            intro he
            exact hq.1 (he ▸ hn)
          have hinv2 : LoopInv fields delayed
              ((promote delayed (setKey results fname r)
                (keys rest)).reverse ++ rest)
              (setKey results fname r) (tr ++ [(fname, results)]) := by
            constructor
            case nodupRes => exact keys_setKey_nodup hinv.nodupRes
            case queueFresh =>
              intro n hn
              rcases (hqmem n).mp hn with hn | hn
              · obtain ⟨g, hg⟩ := exists_of_mem_keys hn
                exact (hpromCond (n, g) hg).1
              · rw [hkeysR2]
                simp only [List.mem_append, List.mem_singleton]
                push_neg
                exact hrestFresh n hn
            case nodupQueue =>
              rw [hqkeys]
              rw [List.nodup_append]
              refine ⟨?_, ?_, ?_⟩
              · rw [List.nodup_reverse]
                have hsub : List.Sublist (keys (promote delayed
                    (setKey results fname r) (keys rest))) (keys delayed) :=
                  (List.filter_sublist _).map Prod.fst
                exact hdelnd.sublist hsub
              · have hq := hinv.nodupQueue
                simp only [keys_cons, List.nodup_cons] at hq
                exact hq.2
              · intro n hn
                rw [List.mem_reverse] at hn
                obtain ⟨g, hg⟩ := exists_of_mem_keys hn
                exact (hpromCond (n, g) hg).2.1
            case queueMem =>
              intro nf hnf
              rcases List.mem_append.mp hnf with hnf | hnf
              · rw [List.mem_reverse] at hnf
                exact hinv.delayedMem nf (hpromMem nf hnf)
              · exact hinv.queueMem nf (List.mem_cons_of_mem _ hnf)
            case queueReady =>
              intro nf hnf d hd
              rcases List.mem_append.mp hnf with hnf | hnf
              · rw [List.mem_reverse] at hnf
                exact (hpromCond nf hnf).2.2 d hd
              · exact hvalPres d
                  (hinv.queueReady nf (List.mem_cons_of_mem _ hnf) d hd)
            case resKeys =>
              rw [hkeysR2, hinv.resKeys]
              simp
            case trReady =>
              intro ev hev f hf d hd
              rcases List.mem_append.mp hev with hev | hev
              · exact hinv.trReady ev hev f hf d hd
              · simp only [List.mem_singleton] at hev
                subst hev
                have hmem : (fname, fdef) ∈ fields :=
                  hinv.queueMem _ (List.mem_cons_self _ _)
                have hlf : lookup fields fname = some fdef :=
                  lookup_unique_of_nodup hfnd hmem
                rw [hlf] at hf
                have hfe : fdef = f := Option.some.inj hf
                subst hfe
                exact hinv.queueReady _ (List.mem_cons_self _ _) d hd
            case trSub =>
              intro ev hev k rr hkr
              rcases List.mem_append.mp hev with hev | hev
              · exact hold k rr (hinv.trSub ev hev k rr hkr)
              · simp only [List.mem_singleton] at hev
                subst hev
                exact hold k rr hkr
            case delayedMem => exact hinv.delayedMem
            case delayedBlocked =>
              intro nf hnf hnR hnQ
              have hnprom : nf ∉ promote delayed (setKey results fname r)
                  (keys rest) := by
                intro hmem
                exact hnQ ((hqmem nf.1).mpr
                  (Or.inl (List.mem_map_of_mem _ hmem)))
              have hcond : ¬((!(keys (setKey results fname r)).contains
                    nf.1 &&
                  (!(keys rest).contains nf.1 &&
                    nf.2.depends_on.all
                      (isValueAt (setKey results fname r)))) = true) := by
                intro hc
                apply hnprom
                apply List.mem_filter.mpr
                refine ⟨hnf, ?_⟩
                simp only [Bool.and_eq_true] at hc ⊢
                exact ⟨⟨hc.1, hc.2.1⟩, hc.2.2⟩
              have ha : (keys (setKey results fname r)).contains nf.1 =
                  false := by
                cases hb : (keys (setKey results fname r)).contains nf.1 with
                | false => rfl
                | true => exact absurd (scontains_eq.mp hb) hnR
              have hb2 : (keys rest).contains nf.1 = false := by
                cases hb : (keys rest).contains nf.1 with
                | false => rfl
                | true =>
                  exact absurd ((hqmem nf.1).mpr (Or.inr (scontains_eq.mp hb)))
                    hnQ
              have hall : ¬(∀ d ∈ nf.2.depends_on,
                  isValueAt (setKey results fname r) d = true) := by
                intro hforall
                apply hcond
                simp only [ha, hb2, Bool.not_false, Bool.true_and]
                exact List.all_eq_true.mpr hforall
              push_neg at hall
              obtain ⟨d, hd, hdv⟩ := hall
              exact ⟨d, hd, by simpa using hdv⟩
            case coverage =>
              intro nf hnf
              rcases hinv.coverage nf hnf with hc | hc | hc
              · exact Or.inl (by rw [hkeysR2]; exact List.mem_append_left _ hc)
              · rcases List.mem_cons.mp hc with heq | hc
                · refine Or.inl ?_
                  rw [hkeysR2]
                  have : nf.1 = fname := congrArg Prod.fst heq
                  simp [this]
                · exact Or.inr (Or.inl (List.mem_append_right _ hc))
              · exact Or.inr (Or.inr hc)
            case selfVal => exact hold _ _ hinv.selfVal
            case errsField =>
              intro k es hk
              rcases hlookInv k _ hk with hk2 | ⟨hk2, hr2⟩
              · exact hinv.errsField k es hk2
              · subst hk2
                rw [← hr2] at hrv
                exact run_validators_ok_errors_field hrv
            case resScope =>
              intro k hk
              rw [hkeysR2] at hk
              rcases List.mem_append.mp hk with hk | hk
              · exact hinv.resScope k hk
              · simp only [List.mem_singleton] at hk
                have hmem : (fname, fdef) ∈ fields :=
                  hinv.queueMem _ (List.mem_cons_self _ _)
                rw [hk]
                exact Or.inr (List.mem_map_of_mem _ hmem)
          exact ih _ _ _ _ _ h hinv2

theorem not_tainted_of_no_failures {fields : List (String × Field)}
    {failed : String → Bool} (h : ∀ d, failed d = false) :
    ∀ n, ¬Tainted fields failed n := by
  intro n hT
  induction hT with
  | base _ _ hfail => rw [h] at hfail; exact absurd hfail (by simp)
  | step _ _ _ ih => exact ih

theorem loopInv_init (sd : SchemaDefinition)
    (hnd : (keys sd.fields).Nodup) (hself : "self" ∉ keys sd.fields) :
    LoopInv sd.fields
      (sd.fields.filter (fun nf =>
        !initiallyReady [("self", .value PyVal.none)] nf.2))
      (sd.fields.filter (fun nf =>
        initiallyReady [("self", .value PyVal.none)] nf.2)).reverse
      [("self", .value PyVal.none)] [] := by
  constructor
  case nodupRes => simp [keys]
  case queueFresh =>
    intro n hn
    simp only [keys, List.map_reverse, List.mem_reverse, List.mem_map] at hn
    obtain ⟨nf, hnf, rfl⟩ := hn
    have : nf.1 ∈ keys sd.fields :=
      List.mem_map_of_mem _ (List.mem_of_mem_filter hnf)
    simp only [keys, List.map_cons, List.map_nil, List.mem_singleton]
    intro he
    exact hself (he ▸ this)
  case nodupQueue =>
    have hsub : List.Sublist
        (keys (sd.fields.filter (fun nf =>
          initiallyReady [("self", .value PyVal.none)] nf.2)))
        (keys sd.fields) := (List.filter_sublist _).map Prod.fst
    simp only [keys, List.map_reverse, List.nodup_reverse]
    exact hnd.sublist hsub
  case queueMem =>
    intro nf hnf
    rw [List.mem_reverse] at hnf
    exact List.mem_of_mem_filter hnf
  case queueReady =>
    intro nf hnf d hd
    rw [List.mem_reverse] at hnf
    have hc := (List.mem_filter.mp hnf).2
    simp only [initiallyReady, Bool.or_eq_true] at hc
    rcases hc with hc | hc
    · rw [List.isEmpty_iff.mp hc] at hd
      simp at hd
    · have := List.all_eq_true.mp hc d hd
      have hds : d ∈ keys ([("self", Res.value PyVal.none)] :
          List (String × Res)) := by simpa using this
      simp only [keys, List.map_cons, List.map_nil,
        List.mem_singleton] at hds
      rw [hds]
      rfl
  case resKeys => rfl
  case trReady => intro ev hev; simp at hev
  case trSub => intro ev hev; simp at hev
  case delayedMem =>
    intro nf hnf
    exact List.mem_of_mem_filter hnf
  case delayedBlocked =>
    intro nf hnf _ _
    have hc := (List.mem_filter.mp hnf).2
    simp only [Bool.not_eq_true', initiallyReady, Bool.or_eq_false_iff] at hc
    obtain ⟨hc1, hc2⟩ := hc
    have : ∃ d ∈ nf.2.depends_on,
        ((keys ([("self", Res.value PyVal.none)] :
          List (String × Res))).contains d) = false := by
      by_contra hall
      push_neg at hall
      have hallT : (List.all nf.2.depends_on (fun d =>
          (keys ([("self", Res.value PyVal.none)] :
            List (String × Res))).contains d)) = true :=
        List.all_eq_true.mpr (fun d hd => by
          cases hcd : (keys ([("self", Res.value PyVal.none)] :
              List (String × Res))).contains d with
          | true => rfl
          | false => exact absurd hcd (hall d hd))
      rw [hallT] at hc2
      exact absurd hc2 (by simp)
    obtain ⟨d, hd, hdc⟩ := this
    refine ⟨d, hd, ?_⟩
    have hdne : ¬(d = "self") := by
      intro he
      rw [he] at hdc
      simp [keys] at hdc
    simp only [isValueAt, lookup]
    rw [if_neg (fun hh => hdne hh.symm)]
  case coverage =>
    intro nf hnf
    by_cases hr : initiallyReady [("self", .value PyVal.none)] nf.2
    · refine Or.inr (Or.inl ?_)
      rw [List.mem_reverse]
      exact List.mem_filter.mpr ⟨hnf, hr⟩
    · refine Or.inr (Or.inr ?_)
      exact List.mem_filter.mpr ⟨hnf, by simpa using hr⟩
  case selfVal => rfl
  case errsField =>
    intro k es hk
    by_cases hks : "self" = k
    · simp only [lookup, if_pos hks] at hk
      exact absurd hk (by simp)
    · simp only [lookup, if_neg hks] at hk
      exact absurd hk (by simp [lookup])
  case resScope =>
    intro k hk
    simp only [keys, List.map_cons, List.map_nil, List.mem_singleton] at hk
    exact Or.inl hk

/-- C1: during a single `clean` call, each declared field is evaluated at
most once (the evaluation trace has no duplicate names), a field is
evaluated only when every name in its `depends_on` is bound to a `Value`
in the results map at that moment, a field transitively dependent on a
failed field is never evaluated and neither heads any reported error path
nor appears in a returned success record, and every field not transitively
dependent on a failed field is evaluated; the instrumented run agrees with
`clean`. -/
theorem c1_dependency_scheduling (sd : SchemaDefinition) (data : Data)
    (ctx : PyVal) (out : CleanOutcome) (res : List (String × Res))
    (tr : Trace)
    (hnd : (keys sd.fields).Nodup)
    (hself : "self" ∉ keys sd.fields)
    (hdeps : ∀ nf ∈ sd.fields, ∀ d ∈ nf.2.depends_on,
      d ∈ keys sd.fields ∨ d = "self")
    (hacyc : ¬Cyclic sd.fields)
    (h : cleanT sd data ctx = .ok (out, res, tr)) :
    clean sd data ctx = .ok out ∧
    (tr.map Prod.fst).Nodup ∧
    (∀ ev ∈ tr, ∀ f, lookup sd.fields ev.1 = some f →
      ∀ d ∈ f.depends_on, isValueAt ev.2 d = true) ∧
    (∀ n, Tainted sd.fields (failedIn res) n →
      n ∉ tr.map Prod.fst ∧
      (∀ ve, out = .inl ve → ∀ e ∈ ve.errors,
        e.field.head? ≠ some (.s n)) ∧
      (∀ rec, out = .inr rec → n ∉ keys rec)) ∧
    (∀ nf ∈ sd.fields, ¬Tainted sd.fields (failedIn res) nf.1 →
      nf.1 ∈ tr.map Prod.fst) := by
  classical
  simp only [cleanT] at h
  split at h
  · exact absurd h (by simp)
  · rename_i results0 tr0 heqLoop
    split at h
    · exact absurd h (by simp)
    · rename_i out0 heqFin
      simp only [Except.ok.injEq, Prod.mk.injEq] at h
      obtain ⟨h1, h2, h3⟩ := h
      rw [h1, h2] at heqFin
      rw [h2, h3] at heqLoop
      have hdelnd : (keys (sd.fields.filter (fun nf =>
          !initiallyReady [("self", .value PyVal.none)] nf.2))).Nodup :=
        hnd.sublist ((List.filter_sublist _).map Prod.fst)
      have hfin := cleanLoopT_inv hnd hdelnd _ _ _ _ _ _ heqLoop
        (loopInv_init sd hnd hself)
      have hTmain : ∀ n, Tainted sd.fields (failedIn res) n →
          n ∉ tr.map Prod.fst := by
        intro n hT
        induction hT with
        | base hmem hd hfail =>
          intro hntr
          obtain ⟨ev, hev, hev1⟩ := List.mem_map.mp hntr
          rename_i n2 f d
          have hlf : lookup sd.fields n2 = some f :=
            lookup_unique_of_nodup hnd hmem
          have hready := hfin.trReady ev hev f (by rw [hev1]; exact hlf) d hd
          obtain ⟨v, hv⟩ := isValueAt_some hready
          have hres2 : lookup res d = some (.value v) :=
            hfin.trSub ev hev d _ hv
          simp only [failedIn, hres2] at hfail
          exact absurd hfail (by simp)
        | step hmem hd hdT ihd =>
          intro hntr
          obtain ⟨ev, hev, hev1⟩ := List.mem_map.mp hntr
          rename_i n2 f d
          have hlf : lookup sd.fields n2 = some f :=
            lookup_unique_of_nodup hnd hmem
          have hready := hfin.trReady ev hev f (by rw [hev1]; exact hlf) d hd
          obtain ⟨v, hv⟩ := isValueAt_some hready
          have hres2 : lookup res d = some (.value v) :=
            hfin.trSub ev hev d _ hv
          have hdk : d ∈ keys res := mem_keys_of_lookup_some hres2
          rw [hfin.resKeys] at hdk
          rcases List.mem_cons.mp hdk with hdk | hdk
          · have := hdT.mem_keys
            rw [hdk] at this
            exact hself this
          · exact ihd hdk
      refine ⟨?_, ?_, hfin.trReady, ?_, ?_⟩
      · simp only [clean]
        rw [cleanLoopT_fst _ _ _ [], heqLoop]
        simp only [Except.map]
        exact heqFin
      · have := hfin.nodupRes
        rw [hfin.resKeys] at this
        exact (List.nodup_cons.mp this).2
      · intro n hT
        refine ⟨hTmain n hT, ?_, ?_⟩
        · intro ve hout e he
          rw [hout] at heqFin
          obtain ⟨hveq, _⟩ := finishClean_inl heqFin
          rw [hveq] at he
          obtain ⟨k, es, hmem, hef⟩ := collectErrors_mem.mp he
          have hlk : lookup res k = some (.errors es) :=
            lookup_unique_of_nodup hfin.nodupRes hmem
          have hesf : es.field = [.s k] := hfin.errsField k es hlk
          simp only [Errors.flatten, List.mem_map] at hef
          obtain ⟨e0, _, hee0⟩ := hef
          have hkmem : k ∈ keys res := mem_keys_of_lookup_some hlk
          rw [hfin.resKeys] at hkmem
          rcases List.mem_cons.mp hkmem with hks | hkt
          · exfalso
            rw [hks] at hlk
            rw [hfin.selfVal] at hlk
            simp at hlk
          · have hkn : k ≠ n := by
              intro he2
              exact hTmain n hT (he2 ▸ hkt)
            rw [← hee0]
            simp only [wrapError, hesf]
            simp only [List.cons_append, List.head?_cons, ne_eq,
              Option.some.injEq, PathKey.s.injEq]
            exact fun hh => hkn hh
        · intro rec hout hmemrec
          rw [hout] at heqFin
          have hfr := finishClean_ok_inr heqFin
          have hsub := keys_record_sublist res
          rw [← hfr.2.2.1] at hsub
          have hkr : n ∈ keys res := hsub.mem hmemrec
          rw [hfin.resKeys] at hkr
          rcases List.mem_cons.mp hkr with hks | hkt
          · exact hself (hks ▸ hT.mem_keys)
          · exact hTmain n hT hkt
      · intro nf hnf hnT
        by_contra hnotin
        apply hacyc
        refine ⟨(keys sd.fields).filter (fun m => decide
          (m ∉ tr.map Prod.fst ∧
            ¬Tainted sd.fields (failedIn res) m)), ?_, ?_⟩
        · apply List.ne_nil_of_mem (a := nf.1)
          exact List.mem_filter.mpr ⟨List.mem_map_of_mem _ hnf,
            decide_eq_true ⟨hnotin, hnT⟩⟩
        · intro m hm
          have hm2 := List.mem_filter.mp hm
          have hmk := hm2.1
          have hmp := of_decide_eq_true hm2.2
          obtain ⟨g, hg⟩ := exists_of_mem_keys hmk
          have hlg : lookup sd.fields m = some g :=
            lookup_unique_of_nodup hnd hg
          refine ⟨g, hlg, ?_⟩
          have hmnotres : m ∉ keys res := by
            rw [hfin.resKeys]
            simp only [List.mem_cons]
            push_neg
            refine ⟨?_, hmp.1⟩
            intro he
            exact hself (he ▸ hmk)
          rcases hfin.coverage (m, g) hg with hc | hc | hc
          · exact absurd hc hmnotres
          · simp at hc
          · obtain ⟨d, hd, hdval⟩ := hfin.delayedBlocked (m, g) hc
              hmnotres (by simp [keys])
            cases hld : lookup res d with
            | some rr =>
              cases rr with
              | value v =>
                have : isValueAt res d = true := by simp [isValueAt, hld]
                rw [this] at hdval
                exact absurd hdval (by simp)
              | errors es =>
                have hfl : failedIn res d = true := by simp [failedIn, hld]
                exact absurd (Tainted.base hg hd hfl) hmp.2
            | none =>
              have hdk : d ∈ keys sd.fields := by
                rcases hdeps (m, g) hg d hd with hh | hh
                · exact hh
                · exfalso
                  rw [hh] at hld
                  rw [hfin.selfVal] at hld
                  exact absurd hld (by simp)
              have hdnotr : d ∉ tr.map Prod.fst := by
                intro hdt
                have hdm : d ∈ keys res := by
                  rw [hfin.resKeys]
                  exact List.mem_cons_of_mem _ hdt
                have := lookup_isSome_of_mem_keys hdm
                rw [hld] at this
                simp at this
              have hdnT : ¬Tainted sd.fields (failedIn res) d := by
                intro hdT
                exact hmp.2 (Tainted.step hg hd hdT)
              exact ⟨d, hd, List.mem_filter.mpr ⟨hdk,
                decide_eq_true ⟨hdnotr, hdnT⟩⟩⟩

theorem sd2_not_cyclic : ¬Cyclic sd2.fields := by
  intro hcyc
  obtain ⟨S, hne, hS⟩ := hcyc
  have ha : "a" ∉ S := by
    intro haa
    obtain ⟨f, hf, d, hd, _⟩ := hS "a" haa
    simp [sd2, lookup] at hf
    subst hf
    simp [strF] at hd
  have hb : "b" ∉ S := by
    intro hbb
    obtain ⟨f, hf, d, hd, hdS⟩ := hS "b" hbb
    simp [sd2, lookup] at hf
    subst hf
    simp [depF] at hd
    subst hd
    exact ha hdS
  obtain ⟨n0, hn0⟩ : ∃ n0, n0 ∈ S := by
    cases S with
    | nil => exact absurd rfl hne
    | cons a t => exact ⟨a, List.mem_cons_self _ _⟩
  obtain ⟨f, hf, _⟩ := hS n0 hn0
  have hk := mem_keys_of_lookup_some hf
  simp [sd2, keys] at hk
  rcases hk with rfl | rfl
  · exact ha hn0
  · exact hb hn0

theorem c1_dependency_scheduling_witness :
    (([("a", [("self", Res.value PyVal.none)]),
       ("b", [("self", Res.value PyVal.none),
              ("a", Res.value (PyVal.str "hi"))])] : Trace).map
        Prod.fst).Nodup ∧
    "b" ∈ (([("a", [("self", Res.value PyVal.none)]),
       ("b", [("self", Res.value PyVal.none),
              ("a", Res.value (PyVal.str "hi"))])] : Trace).map
        Prod.fst) := by
  have happ := c1_dependency_scheduling sd2 (.dict [("a", .str "hi")])
    PyVal.empty
    (.inr [("a", .str "hi"), ("b", .str "hi!")])
    [("self", Res.value PyVal.none),
     ("a", Res.value (PyVal.str "hi")),
     ("b", Res.value (PyVal.str "hi!"))]
    [("a", [("self", Res.value PyVal.none)]),
     ("b", [("self", Res.value PyVal.none),
            ("a", Res.value (PyVal.str "hi"))])]
    (by decide) (by decide) (by decide) sd2_not_cyclic (by decide)
  refine ⟨happ.2.1, ?_⟩
  have hnofail : ∀ d, failedIn
      [("self", Res.value PyVal.none),
       ("a", Res.value (PyVal.str "hi")),
       ("b", Res.value (PyVal.str "hi!"))] d = false := by
    intro d
    simp only [failedIn]
    cases hl : lookup [("self", Res.value PyVal.none),
        ("a", Res.value (PyVal.str "hi")),
        ("b", Res.value (PyVal.str "hi!"))] d with
    | none => rfl
    | some r =>
      cases r with
      | value v => rfl
      | errors es =>
        have hm := mem_of_lookup_some hl
        simp at hm
  exact happ.2.2.2.2 ("b", depF)
    (List.mem_cons_of_mem _ (List.mem_cons_self _ _))
    (not_tainted_of_no_failures hnofail "b")

end Cleancat
